import Mathlib

/-!
Verification of the Rough-Cut Decision Engine of the Video-Editor-App
repository (backend/core/rough_cut.py and backend/thought_grouper.py),
as a shallow embedding in Lean 4.

Modelling conventions:
* a Python `str` is a `List Char` (`Str` below); Python `float` is `ℚ`
  (the algorithms only add, multiply, divide and compare);
* Python `re.sub` with the character classes used by the code
  (`[^\w\s]`, `[^\w\s']`, `[^\w]`) is a character filter; `\w` is
  modelled as alphanumeric-or-underscore (the transcripts are ASCII);
* `difflib.SequenceMatcher(None, a, b).ratio()` is implemented
  faithfully below (b2j with the autojunk heuristic, the j2len dynamic
  programming pass of find_longest_match including its extension loops,
  and the recursive block decomposition of get_matching_blocks);
* the audio collaborator (`AudioAnalyzer.get_features` followed by
  `.get('avg_energy', 0)`, the only field the engine reads) is an
  abstract `Option (ℚ → ℚ → ℚ)`: `none` when no analyzer is available,
  otherwise the average-energy oracle for a time window;
* Python exceptions that the engine does not catch are an explicit
  `Except PyErr` at the pipeline level.
-/

-- Batteries marks the `Rat` arithmetic operations `@[irreducible]`,
-- which blocks `decide` on closed rational computations; restore the
-- default reducibility so the kernel can evaluate the pipeline.
unseal Rat.add Rat.mul Rat.inv Rat.sub

set_option maxRecDepth 100000

namespace VidEd

abbrev Str := List Char

def strOf (s : String) : Str := s.data

/-- Python whitespace characters recognised by `str.split()` / `\s`. -/
def isSpaceChar (c : Char) : Bool :=
  c = ' ' || c = '\t' || c = '\n' || c = '\r' || c = Char.ofNat 11 || c = Char.ofNat 12

/-- Python `\w` on ASCII input: alphanumeric or underscore. -/
def isWordChar (c : Char) : Bool := c.isAlphanum || c = '_'

/-- `str.lower()`. -/
def lowerStr (s : Str) : Str := s.map Char.toLower

/-- `str.strip()`. -/
def stripStr (s : Str) : Str :=
  ((s.dropWhile isSpaceChar).reverse.dropWhile isSpaceChar).reverse

/-- `str.rstrip()`. -/
def rstripStr (s : Str) : Str :=
  (s.reverse.dropWhile isSpaceChar).reverse

def splitWSAux : Str → Str → List Str
  | [], acc => if acc = [] then [] else [acc.reverse]
  | c :: rest, acc =>
    if isSpaceChar c then
      (if acc = [] then [] else [acc.reverse]) ++ splitWSAux rest []
    else
      splitWSAux rest (c :: acc)

/-- Python `str.split()` with no argument: split on whitespace runs,
dropping empty pieces. -/
def splitWS (s : Str) : List Str := splitWSAux s []

/-- `' '.join(words)`. -/
def joinWords (ws : List Str) : Str := List.intercalate [' '] ws

/-- `re.sub(r'[^\w\s]', '', s)`. -/
def subNonWordSpace (s : Str) : Str :=
  s.filter (fun c => isWordChar c || isSpaceChar c)

/-- `re.sub(r"[^\w\s']", '', s)`. -/
def subNonWordSpaceApos (s : Str) : Str :=
  s.filter (fun c => isWordChar c || isSpaceChar c || c = Char.ofNat 39)

/-- `re.sub(r'[^\w]', '', s)`. -/
def subNonWord (s : Str) : Str := s.filter isWordChar

def isInfixAux (needle : Str) : Str → Bool
  | [] => needle.isPrefixOf []
  | c :: rest => needle.isPrefixOf (c :: rest) || isInfixAux needle rest

/-- `needle in hay` for Python strings. -/
def strContains (hay needle : Str) : Bool := isInfixAux needle hay

/-- `s.endswith((c, ...))` for single-character suffixes. -/
def endsWithAny (s : Str) (cs : List Char) : Bool :=
  match s.getLast? with
  | some c => cs.contains c
  | none => false

/-- `s.startswith(p)`. -/
def startsWith (s p : Str) : Bool := p.isPrefixOf s

/-- `s.rfind(c)` for a single character: highest index, `-1` if absent. -/
def rfindChar (s : Str) (c : Char) : Int :=
  match (List.range s.length).filter (fun i => s.getD i (Char.ofNat 0) = c) with
  | [] => -1
  | l => (l.foldl max 0 : Nat)

/-! ### difflib.SequenceMatcher(None, a, b).ratio() -/

/-- Ascending occurrence list of `c` in `b` (a `b2j` entry). -/
def occIdx (b : Str) (c : Char) : List Nat :=
  (List.range b.length).filter (fun j => b.getD j (Char.ofNat 0) = c)

/-- `b2j` with the autojunk heuristic: when `len(b) >= 200`, characters
occurring more than `len(b) // 100 + 1` times are dropped. -/
def b2j (b : Str) (c : Char) : List Nat :=
  let js := occIdx b c
  if b.length ≥ 200 ∧ js.length > b.length / 100 + 1 then [] else js

/-- One inner row of `find_longest_match`: iterate over the `b2j`
occurrence list of `a[i]`, with `continue` below `blo` and `break` at
`bhi`, threading the previous row `old`, the next row `new` and the
best match so far. `old (j-1)` for `j = 0` is the Python
`j2len.get(-1, 0) = 0`. -/
def flmRow (blo bhi i : Nat) :
    List Nat → (Nat → Nat) → (Nat → Nat) → (Nat × Nat × Nat) →
    ((Nat → Nat) × (Nat × Nat × Nat))
  | [], _old, new, best => (new, best)
  | j :: js, old, new, best =>
    if j < blo then flmRow blo bhi i js old new best
    else if bhi ≤ j then (new, best)
    else
      let k := (if j = 0 then 0 else old (j - 1)) + 1
      let new1 : Nat → Nat := fun x => if x = j then k else new x
      let best1 := if k > best.2.2 then (i + 1 - k, j + 1 - k, k) else best
      flmRow blo bhi i js old new1 best1

/-- The outer `for i in range(alo, ahi)` loop of `find_longest_match`. -/
def flmRows (a b : Str) (blo bhi : Nat) :
    List Nat → (Nat → Nat) → (Nat × Nat × Nat) → (Nat × Nat × Nat)
  | [], _, best => best
  | i :: is, j2len, best =>
    let r := flmRow blo bhi i (b2j b (a.getD i (Char.ofNat 0))) j2len (fun _ => 0) best
    flmRows a b blo bhi is r.1 r.2

/-- Left extension loop of `find_longest_match` (the junk set is empty
since `isjunk is None`, so `not isbjunk(...)` is vacuously true). -/
def flmExtendLeft (a b : Str) (alo blo : Nat) :
    Nat → (Nat × Nat × Nat) → (Nat × Nat × Nat)
  | 0, best => best
  | fuel + 1, (bi, bj, bs) =>
    if alo < bi ∧ blo < bj ∧
        a.getD (bi - 1) (Char.ofNat 0) = b.getD (bj - 1) (Char.ofNat 0) then
      flmExtendLeft a b alo blo fuel (bi - 1, bj - 1, bs + 1)
    else (bi, bj, bs)

/-- Right extension loop of `find_longest_match`. -/
def flmExtendRight (a b : Str) (ahi bhi : Nat) :
    Nat → (Nat × Nat × Nat) → (Nat × Nat × Nat)
  | 0, best => best
  | fuel + 1, (bi, bj, bs) =>
    if bi + bs < ahi ∧ bj + bs < bhi ∧
        a.getD (bi + bs) (Char.ofNat 0) = b.getD (bj + bs) (Char.ofNat 0) then
      flmExtendRight a b ahi bhi fuel (bi, bj, bs + 1)
    else (bi, bj, bs)

/-- `find_longest_match(alo, ahi, blo, bhi)`.  The two junk-extension
loops of difflib are omitted: the junk set is empty. -/
def findLongestMatch (a b : Str) (alo ahi blo bhi : Nat) : Nat × Nat × Nat :=
  let best := flmRows a b blo bhi
    ((List.range ahi).drop alo) (fun _ => 0) (alo, blo, 0)
  let best := flmExtendLeft a b alo blo best.1 best
  flmExtendRight a b ahi bhi (ahi + bhi) best

/-- Total size of the matching blocks of `get_matching_blocks`,
restricted to the window `[alo, ahi) × [blo, bhi)`; the fuel bounds the
recursion depth and `(ahi - alo) + (bhi - blo)` always suffices. -/
def matchTotal (a b : Str) : Nat → Nat → Nat → Nat → Nat → Nat
  | 0, _, _, _, _ => 0
  | fuel + 1, alo, ahi, blo, bhi =>
    let m := findLongestMatch a b alo ahi blo bhi
    let i := m.1
    let j := m.2.1
    let k := m.2.2
    if k = 0 then 0
    else
      k +
      (if alo < i ∧ blo < j then matchTotal a b fuel alo i blo j else 0) +
      (if i + k < ahi ∧ j + k < bhi then matchTotal a b fuel (i + k) ahi (j + k) bhi else 0)

/-- `SequenceMatcher(None, a, b).ratio() = 2 * M / T` (and `1.0` when
both strings are empty). -/
def seqRatio (a b : Str) : ℚ :=
  let total := a.length + b.length
  if total = 0 then 1
  else (2 * (matchTotal a b total 0 a.length 0 b.length) : ℚ) / (total : ℚ)

/-! ### Data model

A transcript word `{'word': str, 'start': float, 'end': float,
'isDeleted': bool}`; the `end` key is `stop` below (`end` is reserved).
A pipeline segment carries the fields the engine reads downstream
(`word_indices`, `start_time`, `end_time`, `text`); the `start_idx` /
`end_idx` keys written by `_split_by_silence` are never read by later
stages and are not modelled. -/

structure Word where
  word : Str
  start : ℚ
  stop : ℚ
  isDeleted : Bool := false
deriving DecidableEq

def wDefault : Word := ⟨[], 0, 0, false⟩

structure Seg where
  wordIndices : List Nat
  startTime : ℚ
  endTime : ℚ
  text : Str
deriving DecidableEq

/-- The audio collaborator: `none` when no `AudioAnalyzer` is available,
otherwise the oracle `fun gapStart gapEnd => get_features(gapStart,
gapEnd).get('avg_energy', 0)` (the only feature the engine reads). -/
abbrev Audio := Option (ℚ → ℚ → ℚ)

def audioEnergy (f : ℚ → ℚ → ℚ) (s e : ℚ) : ℚ := f s e

/-! ### ProfessionalRoughCutV2._get_keywords and _calculate_similarity -/

/-- The stop-word set of `_get_keywords` (the Python set literal lists
`'very'` twice; a set keeps one copy). -/
def rcStops : List Str :=
  [strOf "the", strOf "a", strOf "an", strOf "is", strOf "are", strOf "was",
   strOf "were", strOf "to", strOf "of", strOf "in", strOf "on", strOf "at",
   strOf "for", strOf "with", strOf "as", strOf "by", strOf "and", strOf "or",
   strOf "but", strOf "so", strOf "if", strOf "then", strOf "it", strOf "that",
   strOf "this", strOf "i", strOf "you", strOf "he", strOf "she", strOf "we",
   strOf "they", strOf "almost", strOf "maybe", strOf "perhaps", strOf "just",
   strOf "well", strOf "like", strOf "really", strOf "very", strOf "one",
   strOf "two", strOf "about", strOf "some", strOf "more", strOf "most"]

/-- `_get_keywords`: strong keywords of a text. -/
def getKeywords (text : Str) : Finset Str :=
  ((splitWS (subNonWordSpaceApos (lowerStr text))).toFinset).filter
    (fun w => w ∉ rcStops ∧ w.length > 2)

/-- The structural score of `_calculate_similarity`: difflib ratio on
lower-cased, stripped, punctuation-stripped text. -/
def structScoreOf (text1 text2 : Str) : ℚ :=
  seqRatio (subNonWordSpaceApos (stripStr (lowerStr text1)))
    (subNonWordSpaceApos (stripStr (lowerStr text2)))

/-- The `sem_score` of `_calculate_similarity`: keyword Jaccard, `0`
when either keyword set is empty. -/
def keywordJaccard (text1 text2 : Str) : ℚ :=
  let k1 := getKeywords text1
  let k2 := getKeywords text2
  if k1 ≠ ∅ ∧ k2 ≠ ∅ then
    ((k1 ∩ k2).card : ℚ) / ((k1 ∪ k2).card : ℚ)
  else 0

/-- `_calculate_similarity`. -/
def calculateSimilarity (text1 text2 : Str) : ℚ :=
  let structScore := structScoreOf text1 text2
  let semScore := keywordJaccard text1 text2
  if semScore < 7/10 then structScore * (2/5)
  else max structScore semScore

/-! ### ThoughtGrouper -/

/-- `ThoughtGrouper.STOP_WORDS` (a set literal; `'her'` appears twice). -/
def tgStopWords : List Str :=
  [strOf "the", strOf "a", strOf "an", strOf "is", strOf "are", strOf "was",
   strOf "were", strOf "be", strOf "been", strOf "have", strOf "has",
   strOf "had", strOf "do", strOf "does", strOf "did", strOf "will",
   strOf "would", strOf "could", strOf "should", strOf "may", strOf "might",
   strOf "can", strOf "to", strOf "of", strOf "in", strOf "on", strOf "at",
   strOf "for", strOf "with", strOf "as", strOf "by", strOf "from",
   strOf "and", strOf "or", strOf "but", strOf "if", strOf "then",
   strOf "so", strOf "it", strOf "that", strOf "this", strOf "these",
   strOf "those", strOf "i", strOf "you", strOf "he", strOf "she",
   strOf "we", strOf "they", strOf "me", strOf "him", strOf "her",
   strOf "us", strOf "them", strOf "my", strOf "your", strOf "his",
   strOf "our", strOf "their"]

/-- `ThoughtGrouper._extract_keywords`. -/
def extractKeywords (text : Str) : Finset Str :=
  ((splitWS (subNonWordSpace (lowerStr text))).toFinset).filter
    (fun w => w ∉ tgStopWords ∧ w.length > 2)

/-- `ThoughtGrouper._calculate_semantic_similarity` (keyword Jaccard). -/
def semanticSimilarity (text1 text2 : Str) : ℚ :=
  let k1 := extractKeywords text1
  let k2 := extractKeywords text2
  if k1 = ∅ ∨ k2 = ∅ then 0
  else
    let union := (k1 ∪ k2).card
    if union > 0 then ((k1 ∩ k2).card : ℚ) / (union : ℚ) else 0

structure Sentence where
  wordIndices : List Nat
  startIdx : Nat
  endIdx : Nat
  startTime : ℚ
  endTime : ℚ
  text : Str
deriving DecidableEq

def sDefault : Sentence := ⟨[], 0, 0, 0, 0, []⟩

/-- The loop body of `ThoughtGrouper._group_into_sentences`: walk the
word positions, flushing the accumulated sentence at terminal
punctuation or at a `> 0.5s` pause once more than 3 words accumulated. -/
def sentGo (words : List Word) : List Nat → List Nat → Nat → List Sentence
  | [], cur, startIdx =>
    if cur = [] then []
    else [⟨cur, startIdx, words.length - 1, (words.getD startIdx wDefault).start,
          (words.getLastD wDefault).stop,
          joinWords (cur.map (fun idx => (words.getD idx wDefault).word))⟩]
  | i :: rest, cur, startIdx =>
    let w := words.getD i wDefault
    let cur1 := cur ++ [i]
    let endsP := endsWithAny (rstripStr w.word) ['.', '!', '?']
    let hasPause := decide (i < words.length - 1) &&
      decide ((words.getD (i + 1) wDefault).start - w.stop > 1/2)
    if endsP || (hasPause && decide (cur1.length > 3)) then
      ⟨cur1, startIdx, i, (words.getD startIdx wDefault).start, w.stop,
        joinWords (cur1.map (fun idx => (words.getD idx wDefault).word))⟩ ::
        sentGo words rest [] (i + 1)
    else
      sentGo words rest cur1 startIdx

/-- `ThoughtGrouper._group_into_sentences`. -/
def groupIntoSentences (words : List Word) : List Sentence :=
  sentGo words (List.range words.length) [] 0

inductive TType
  | unknown | mainPoint | tangent | filler | repetition
deriving DecidableEq

structure Thought where
  wordIndices : List Nat
  startIdx : Nat
  endIdx : Nat
  startTime : ℚ
  endTime : ℚ
  text : Str
  sentenceCount : Nat
  wordCount : Nat
  coherenceScore : ℚ
  ttype : TType
  repeatedThoughtIdx : Option Nat := none
deriving DecidableEq

def tDefault : Thought := ⟨[], 0, 0, 0, 0, [], 0, 0, 0, .unknown, none⟩

/-- `ThoughtGrouper._create_thought_from_sentences`.  The dict literal
has no `repeated_thought_idx` key, hence `none` here. -/
def createThought (sents : List Sentence) : Thought :=
  let allIdx := (sents.map (·.wordIndices)).flatten
  { wordIndices := allIdx
    startIdx := (sents.headD sDefault).startIdx
    endIdx := (sents.getLastD sDefault).endIdx
    startTime := (sents.headD sDefault).startTime
    endTime := (sents.getLastD sDefault).endTime
    text := joinWords (sents.map (·.text))
    sentenceCount := sents.length
    wordCount := allIdx.length
    coherenceScore := 0
    ttype := .unknown
    repeatedThoughtIdx := none }

/-- The loop of `_merge_sentences_into_thoughts`: `prev` is the
previous sentence, `group` the sentences of the thought being built. -/
def mergeGo : Sentence → List Sentence → List Sentence → List Thought
  | _, group, [] => [createThought group]
  | prev, group, s :: rest =>
    let pause := s.startTime - prev.endTime
    let sim := semanticSimilarity prev.text s.text
    if pause < 4/5 ∨ sim > 1/2 then mergeGo s (group ++ [s]) rest
    else createThought group :: mergeGo s [s] rest

/-- `ThoughtGrouper._merge_sentences_into_thoughts`. -/
def mergeSentencesIntoThoughts : List Sentence → List Thought
  | [] => []
  | s :: rest => mergeGo s [s] rest

/-- The subject-pronoun set of `_has_subject_verb`. -/
def tgSubjects : List Str :=
  [strOf "i", strOf "you", strOf "he", strOf "she", strOf "it",
   strOf "we", strOf "they", strOf "this", strOf "that"]

/-- The verb set of `_has_subject_verb`. -/
def tgVerbs : List Str :=
  [strOf "is", strOf "are", strOf "was", strOf "were", strOf "be",
   strOf "been", strOf "being", strOf "have", strOf "has", strOf "had",
   strOf "do", strOf "does", strOf "did", strOf "will", strOf "would",
   strOf "could", strOf "should", strOf "can", strOf "may", strOf "go",
   strOf "goes", strOf "went", strOf "come", strOf "came", strOf "get",
   strOf "got", strOf "make", strOf "made", strOf "see", strOf "saw",
   strOf "know", strOf "knew", strOf "think", strOf "want", strOf "need",
   strOf "like", strOf "love", strOf "hate"]

/-- `ThoughtGrouper._has_subject_verb`: the code returns
`has_subject or has_verb` ("Either is good enough"). -/
def hasSubjectVerb (text : Str) : Bool :=
  let ws := splitWS (lowerStr text)
  ws.any (fun w => tgSubjects.contains w) || ws.any (fun w => tgVerbs.contains w)

/-- The score assigned by `ThoughtGrouper._score_coherence` to one
thought. -/
def coherenceOf (t : Thought) : ℚ :=
  let s0 : ℚ := 1/2
  let s1 := s0 + (if hasSubjectVerb t.text then 1/5 else 0)
  let s2 := s1 + (if endsWithAny (rstripStr t.text) ['.', '!', '?'] then 3/20 else 0)
  let s3 := s2 + (if t.wordCount ≥ 3 then 1/10 else 0)
  let s4 := s3 + (if 3 ≤ t.wordCount ∧ t.wordCount ≤ 30 then 1/20 else 0)
  min 1 (max 0 s4)

/-- `ThoughtGrouper._score_coherence`. -/
def scoreCoherence (ts : List Thought) : List Thought :=
  ts.map (fun t => { t with coherenceScore := coherenceOf t })

/-- `ThoughtGrouper._check_exact_phrase_match`: a shared run of 4
words of `text1` occurring verbatim (as a substring) in `text2`. -/
def checkExactPhraseMatch (text1 text2 : Str) : Bool :=
  let words1 := splitWS (lowerStr text1)
  (List.range (words1.length + 1 - 4)).any (fun i =>
    strContains (lowerStr text2) (joinWords ((words1.drop i).take 4)))

/-- The classification of one thought in
`ThoughtGrouper._classify_thought_types`: `filler`, then `repetition`
against the preceding 20-thought window, then the tangent check.  No
branch records a matched prior thought's index. -/
def classifyOne (ts : List Thought) (i : Nat) (t : Thought) : TType :=
  let t0 : TType :=
    if t.wordCount < 3 ∧ t.coherenceScore < 1/2 then .filler
    else if i > 0 then
      let window := (ts.take i).drop (i - 20)
      if window.any (fun p =>
          decide (semanticSimilarity t.text p.text > 3/5) ||
          checkExactPhraseMatch t.text p.text) then
        .repetition
      else .mainPoint
    else .mainPoint
  if t0 = .mainPoint ∧ 0 < i ∧ i < ts.length - 1 then
    let prev := ts.getD (i - 1) tDefault
    let next := ts.getD (i + 1) tDefault
    if semanticSimilarity t.text prev.text < 1/5 ∧
        semanticSimilarity t.text next.text < 1/5 then .tangent
    else .mainPoint
  else t0

/-- `ThoughtGrouper._classify_thought_types` (the loop only writes the
`type` key, which no classification reads, so it is a map). -/
def classifyThoughtTypes (ts : List Thought) : List Thought :=
  (List.range ts.length).map (fun i =>
    let t := ts.getD i tDefault
    { t with ttype := classifyOne ts i t })

/-- `ThoughtGrouper.group_into_thoughts`. -/
def groupIntoThoughts (words : List Word) : List Thought :=
  if words = [] then []
  else classifyThoughtTypes (scoreCoherence (mergeSentencesIntoThoughts
    (groupIntoSentences words)))

/-! ### ProfessionalRoughCutV2 pipeline stages -/

def segDefault : Seg := ⟨[], 0, 0, []⟩

/-- A segment flushed by `_split_by_silence`: its text joins the
non-deleted words only, while `word_indices` keeps every index. -/
def mkSilenceSeg (words : List Word) (cur : List Nat) (startIdx endIdx : Nat) : Seg :=
  { wordIndices := cur
    startTime := (words.getD startIdx wDefault).start
    endTime := (words.getD endIdx wDefault).stop
    text := joinWords ((cur.filter
      (fun idx => !(words.getD idx wDefault).isDeleted)).map
      (fun idx => (words.getD idx wDefault).word)) }

/-- The loop of `_split_by_silence`: a gap `> 2.0s` between word `i`
and word `i+1` flushes the current segment, unless the audio oracle
reports average energy `> 0.08` over the gap (smart silence
recovery). -/
def silenceGo (words : List Word) (audio : Audio) :
    List Nat → List Nat → Nat → List Seg
  | [], cur, startIdx =>
    if cur = [] then []
    else [mkSilenceSeg words cur startIdx (words.length - 1)]
  | i :: rest, cur, startIdx =>
    let cur1 := cur ++ [i]
    if i < words.length - 1 then
      let gap := (words.getD (i + 1) wDefault).start - (words.getD i wDefault).stop
      let isTrueSilence :=
        match audio with
        | none => true
        | some f =>
          !decide (audioEnergy f (words.getD i wDefault).stop
            (words.getD (i + 1) wDefault).start > 2/25)
      if gap > 2 then
        if isTrueSilence then
          mkSilenceSeg words cur1 startIdx i :: silenceGo words audio rest [] (i + 1)
        else silenceGo words audio rest cur1 startIdx
      else silenceGo words audio rest cur1 startIdx
    else silenceGo words audio rest cur1 startIdx

/-- `_split_by_silence`. -/
def splitBySilence (words : List Word) (audio : Audio) : List Seg :=
  if words = [] then [] else silenceGo words audio (List.range words.length) [] 0

/-- The subset/fuzzy comparison of `_textual_scrub` pass 1 for one
adjacent pair. -/
def scrubPair (curr next : Seg) : Bool :=
  let currText := stripStr (subNonWordSpace (lowerStr curr.text))
  let nextText := stripStr (subNonWordSpace (lowerStr next.text))
  if currText = [] ∨ nextText = [] then false
  else
    let isSubset := strContains nextText currText &&
      decide (currText.length < nextText.length)
    let isFuzzy := decide (seqRatio currText nextText > 17/20) &&
      decide (currText.length < nextText.length)
    isSubset || isFuzzy

/-- Pass 1 of `_textual_scrub`: the set of segment indices scrubbed as
subsets/fuzzy matches of their successor (the `i in scrubbed_indices`
guard is kept although the loop can never re-reach an added index). -/
def scrubSet (segs : List Seg) : List Nat :=
  (List.range (segs.length - 1)).foldl (fun acc i =>
    if acc.contains i then acc
    else if scrubPair (segs.getD i segDefault) (segs.getD (i + 1) segDefault) then
      acc ++ [i]
    else acc) []

/-- Pass 2 of `_textual_scrub`: drop scrubbed indices and slow tiny
segments (`wps < 0.8` and fewer than 3 words over a `> 0.5s` span). -/
def scrubKeep (scrubbed : List Nat) (i : Nat) (seg : Seg) : Bool :=
  if scrubbed.contains i then false
  else
    let duration := seg.endTime - seg.startTime
    let wordCount := seg.wordIndices.length
    if duration > 1/2 then
      let wps := (wordCount : ℚ) / duration
      if wps < 4/5 ∧ wordCount < 3 then false else true
    else true

/-- `_textual_scrub`. -/
def textualScrub (segs : List Seg) : List Seg :=
  if segs = [] then []
  else
    let scrubbed := scrubSet segs
    (List.range segs.length).filterMap (fun i =>
      if scrubKeep scrubbed i (segs.getD i segDefault) then
        some (segs.getD i segDefault)
      else none)

/-- The internal cut points of `_refine_segmentation` for one segment:
after terminal punctuation, or after a `> 0.4s` gap not vetoed by
audio energy `> 0.1`. -/
def refineCutsGo (words : List Word) (audio : Audio) (wis : List Nat) :
    List Nat → List Nat
  | [] => []
  | i :: rest =>
    let w1 := words.getD (wis.getD i 0) wDefault
    let w2 := words.getD (wis.getD (i + 1) 0) wDefault
    if endsWithAny (stripStr w1.word) ['.', '!', '?'] then
      (i + 1) :: refineCutsGo words audio wis rest
    else if w2.start - w1.stop > 2/5 then
      let isTrueSplit :=
        match audio with
        | none => true
        | some f => !decide (audioEnergy f w1.stop w2.start > 1/10)
      if isTrueSplit then (i + 1) :: refineCutsGo words audio wis rest
      else refineCutsGo words audio wis rest
    else refineCutsGo words audio wis rest

/-- The slices `word_indices[start:end]` for consecutive cut points,
keeping only `end > start`. -/
def slicesOf (wis : List Nat) (cuts : List Nat) : List (List Nat) :=
  (cuts.zip cuts.tail).filterMap (fun p =>
    if p.1 < p.2 then some ((wis.drop p.1).take (p.2 - p.1)) else none)

/-- `_refine_segmentation`. -/
def refineSegmentation (words : List Word) (audio : Audio) (segs : List Seg) :
    List Seg :=
  segs.flatMap (fun seg =>
    let n := seg.wordIndices.length
    let cuts := 0 :: (refineCutsGo words audio seg.wordIndices
      (List.range (n - 1)) ++ [n])
    (slicesOf seg.wordIndices cuts).map (fun indices =>
      { wordIndices := indices
        startTime := (words.getD (indices.headD 0) wDefault).start
        endTime := (words.getD (indices.getLastD 0) wDefault).stop
        text := joinWords (indices.map (fun idx => (words.getD idx wDefault).word)) }))

/-- State of the word scan in `_process_cut_that_signals`. -/
structure CutScanState where
  before : List Str
  after : List Str
  inAfter : Bool
  skipNext : Bool
deriving DecidableEq

/-- The `for i, word in enumerate(words_list)` scan: the first bare
`cut` followed by `that`/`this` flips to the after-side (both phrase
words skipped); every other word goes to `before` or `after`. -/
def cutScan (wordsList : List Str) : List Nat → CutScanState → CutScanState
  | [], st => st
  | i :: rest, st =>
    if st.skipNext then cutScan wordsList rest { st with skipNext := false }
    else
      let word := wordsList.getD i []
      let curClean := subNonWord (lowerStr word)
      if curClean = strOf "cut" ∧ ¬st.inAfter ∧ i < wordsList.length - 1 ∧
          (let nextClean := subNonWord (lowerStr (wordsList.getD (i + 1) []))
           nextClean = strOf "that" ∨ nextClean = strOf "this") then
        cutScan wordsList rest { st with inAfter := true, skipNext := true }
      else if st.inAfter then
        cutScan wordsList rest { st with after := st.after ++ [word] }
      else
        cutScan wordsList rest { st with before := st.before ++ [word] }

/-- `_process_cut_that_signals` on one segment: `none` when the rebuilt
text is empty (segment dropped), `some` of the rebuilt or untouched
segment otherwise.  (`cut_position` is computed by the Python code but
never used.) -/
def processCutSegment (words : List Word) (seg : Seg) : Option Seg :=
  let text := lowerStr seg.text
  if strContains text (strOf "cut that") || strContains text (strOf "cut this") then
    let wordsList := splitWS seg.text
    let st := cutScan wordsList (List.range wordsList.length) ⟨[], [], false, false⟩
    let beforeText := stripStr (joinWords st.before)
    let searchText :=
      if endsWithAny beforeText ['.', '!', '?'] then beforeText.dropLast else beforeText
    let lastSentenceEnd := max (rfindChar searchText '.')
      (max (rfindChar searchText '!') (rfindChar searchText '?'))
    let keptBefore :=
      if lastSentenceEnd > 0 then stripStr (beforeText.take (lastSentenceEnd.toNat + 1))
      else []
    let newText := stripStr (keptBefore ++ [' '] ++ joinWords st.after)
    if newText ≠ [] then
      let keptBeforeCount := if keptBefore ≠ [] then (splitWS keptBefore).length else 0
      let afterCount := st.after.length
      let newIndices :=
        (if keptBeforeCount > 0 then seg.wordIndices.take keptBeforeCount else []) ++
        (if afterCount > 0 then
          seg.wordIndices.drop (seg.wordIndices.length - afterCount)
         else [])
      some { wordIndices := newIndices
             text := newText
             startTime :=
               if newIndices ≠ [] then (words.getD (newIndices.headD 0) wDefault).start
               else seg.startTime
             endTime :=
               if newIndices ≠ [] then (words.getD (newIndices.getLastD 0) wDefault).stop
               else seg.endTime }
    else none
  else some seg

/-- `_process_cut_that_signals`. -/
def processCutThatSignals (words : List Word) (segs : List Seg) : List Seg :=
  segs.filterMap (processCutSegment words)

def trailingConnectors1 : List Str :=
  [strOf "and", strOf "but", strOf "so", strOf "or", strOf "then",
   strOf "because", strOf "the", strOf "a"]

/-- The restart cues checked in the unpunctuated branch of
`_remove_incomplete_sentences` (this list includes `"i "`). -/
def restartsNoPunct : List Str :=
  [strOf "so ", strOf "i mean", strOf "what i meant", strOf "let me",
   strOf "actually", strOf "the ", strOf "it ", strOf "i "]

/-- The restart cues checked in the punctuated branch (no `"i "`). -/
def restartsPunct : List Str :=
  [strOf "so ", strOf "i mean", strOf "what i meant", strOf "let me",
   strOf "actually", strOf "the ", strOf "it "]

/-- The trailing-connector list of the punctuated branch (`'because'`
appears twice in the Python list literal). -/
def trailingConnectors2 : List Str :=
  [strOf "and", strOf "but", strOf "so", strOf "or", strOf "then",
   strOf "because", strOf "the", strOf "a",
   strOf "almost", strOf "very", strOf "really", strOf "too", strOf "quite",
   strOf "is", strOf "are", strOf "was", strOf "were", strOf "am",
   strOf "in", strOf "on", strOf "at", strOf "for", strOf "with",
   strOf "by", strOf "of",
   strOf "if", strOf "when", strOf "while", strOf "because", strOf "although"]

/-- The trailing-connector list of the last-segment special rule. -/
def trailingConnectors3 : List Str :=
  [strOf "and", strOf "but", strOf "so", strOf "or", strOf "then",
   strOf "because", strOf "the", strOf "a", strOf "to", strOf "with"]

/-- The surgical trim of `_remove_incomplete_sentences`: keep the
first `numKeep` word indices and rebuild text/end time from them. -/
def trimTo (words : List Word) (seg : Seg) (numKeep : Nat) : Seg :=
  let wi := seg.wordIndices.take numKeep
  { seg with
    wordIndices := wi
    text := joinWords (wi.map (fun idx => (words.getD idx wDefault).word))
    endTime :=
      if wi ≠ [] then (words.getD (wi.getLastD 0) wDefault).stop else seg.endTime }

/-- The trailing-connector trim applied to an unpunctuated segment by
`_remove_incomplete_sentences` before its drop check. -/
def noPunctTrim (words : List Word) (seg : Seg) : Seg :=
  let wordsText := splitWS seg.text
  if wordsText ≠ [] ∧
      trailingConnectors1.contains (lowerStr (wordsText.getLastD [])) then
    let wi1 := seg.wordIndices.dropLast
    { seg with
      wordIndices := wi1
      text := joinWords wordsText.dropLast
      endTime :=
        if wi1 ≠ [] then (words.getD (wi1.getLastD 0) wDefault).stop
        else seg.endTime }
  else seg

/-- The unpunctuated branch of `_remove_incomplete_sentences`: trim a
trailing connector, then drop the whole segment when it is short
(fewer than 6 word indices after the trim) and the next segment starts
with a restart cue. -/
def processIncompleteNoPunct (words : List Word) (segs : List Seg) (i : Nat)
    (seg : Seg) : Option Seg :=
  let seg1 := noPunctTrim words seg
  if seg1.wordIndices.length < 6 ∧ i < segs.length - 1 ∧
      restartsNoPunct.any (fun r =>
        startsWith (lowerStr (segs.getD (i + 1) segDefault).text) r) then
    none
  else if seg1.wordIndices ≠ [] then some seg1 else none

/-- `_remove_incomplete_sentences` on the segment at position `i`
(`none` = the loop appends nothing for this position). -/
def processIncompleteOne (words : List Word) (segs : List Seg) (i : Nat) :
    Option Seg :=
  let seg := segs.getD i segDefault
  let text := stripStr seg.text
  let lastP := max (rfindChar text '.') (max (rfindChar text '!') (rfindChar text '?'))
  if lastP < 0 then processIncompleteNoPunct words segs i seg
  else
    let p := lastP.toNat
    let trailingText := stripStr (text.drop (p + 1))
    let trailingWords := splitWS trailingText
    let seg1 :=
      if trailingWords ≠ [] then
        let shouldTrim :=
          if i < segs.length - 1 then
            (restartsPunct.any (fun r =>
              startsWith (lowerStr (segs.getD (i + 1) segDefault).text) r)) ||
            trailingConnectors2.contains (lowerStr (trailingWords.getLastD []))
          else false
        if shouldTrim then trimTo words seg (splitWS (text.take (p + 1))).length
        else if i = segs.length - 1 ∧
            trailingConnectors3.contains (lowerStr (trailingWords.getLastD [])) then
          trimTo words seg (splitWS (text.take (p + 1))).length
        else seg
      else seg
    if seg1.wordIndices ≠ [] then some seg1 else none

/-- `_remove_incomplete_sentences`. -/
def removeIncompleteSentences (words : List Word) (segs : List Seg) : List Seg :=
  (List.range segs.length).filterMap (processIncompleteOne words segs)

/-- `str.replace(pat, rep)` on all (leftmost, non-overlapping)
occurrences; the fuel is the string length, enough since each step
consumes at least one character (the patterns used are nonempty). -/
def replaceAllAux : Nat → Str → Str → Str → Str
  | 0, s, _, _ => s
  | fuel + 1, s, pat, rep =>
    match s with
    | [] => []
    | c :: rest =>
      if pat ≠ [] ∧ pat.isPrefixOf s then
        rep ++ replaceAllAux fuel (s.drop pat.length) pat rep
      else c :: replaceAllAux fuel rest pat rep

def replaceAll (s pat rep : Str) : Str := replaceAllAux s.length s pat rep

/-- The contraction-expansion table of `get_prefix` inside
`_process_incremental_takes`, in the insertion order of the Python
dict. -/
def contractions : List (Str × Str) :=
  [(strOf "you're", strOf "you are"), (strOf "i'm", strOf "i am"),
   (strOf "we're", strOf "we are"), (strOf "they're", strOf "they are"),
   (strOf "it's", strOf "it is"), (strOf "he's", strOf "he is"),
   (strOf "she's", strOf "she is"), (strOf "that's", strOf "that is"),
   (strOf "what's", strOf "what is"), (strOf "don't", strOf "do not"),
   (strOf "doesn't", strOf "does not"), (strOf "didn't", strOf "did not"),
   (strOf "can't", strOf "cannot"), (strOf "won't", strOf "will not"),
   (strOf "isn't", strOf "is not"), (strOf "aren't", strOf "are not"),
   (strOf "wasn't", strOf "was not"), (strOf "weren't", strOf "were not"),
   (strOf "i've", strOf "i have"), (strOf "you've", strOf "you have"),
   (strOf "we've", strOf "we have"), (strOf "they've", strOf "they have"),
   (strOf "i'll", strOf "i will"), (strOf "you'll", strOf "you will")]

/-- `get_prefix`: lower-case, expand contractions, strip punctuation,
first 4 tokens. -/
def getPrefix (t : Str) : List Str :=
  let t1 := contractions.foldl (fun acc p => replaceAll acc p.1 p.2) (lowerStr t)
  (splitWS (subNonWordSpace t1)).take 4

/-- Length of the common prefix of two token lists (the zip-and-break
match count of `_process_incremental_takes`). -/
def prefixMatchCount : List Str → List Str → Nat
  | a :: as_, b :: bs => if a = b then 1 + prefixMatchCount as_ bs else 0
  | _, _ => 0

/-- Cluster scan of `_process_incremental_takes`: indices `j` in the
forward window whose normalized prefix fully matches the anchor prefix
(at least 3 tokens), stopping at a `> 30s` gap and skipping already
discarded indices. -/
def clusterGo (segs : List Seg) (curr : Seg) (anchor : List Str)
    (discard : List Nat) : List Nat → List Nat
  | [] => []
  | j :: js =>
    if discard.contains j then clusterGo segs curr anchor discard js
    else
      let later := segs.getD j segDefault
      if later.startTime - curr.endTime > 30 then []
      else
        let mc := prefixMatchCount anchor (getPrefix later.text)
        if mc = anchor.length ∧ mc ≥ 3 then j :: clusterGo segs curr anchor discard js
        else clusterGo segs curr anchor discard js

/-- One ordered pair `(idx_a, idx_b)` of the pairwise cluster
resolution: rules 1-3 decide `should_delete_b`; otherwise the
divergence-protection region may discard `idx_a` (identical keyword
sets, shorter text) or protect both (unique keywords on both sides);
otherwise the quality preference discards the unpunctuated side of a
`> 0.7`-similar pair.  (`has_strong_a` / `has_strong_b` are computed
by the Python code but never read.)  Returns the updated discard
list. -/
def takesPairStep (segs : List Seg) (audio : Audio) (idxA idxB : Nat)
    (cd : List Nat) : List Nat :=
  let segA := segs.getD idxA segDefault
  let segB := segs.getD idxB segDefault
  let textA := subNonWordSpace (lowerStr segA.text)
  let textB := subNonWordSpace (lowerStr segB.text)
  let sim := calculateSimilarity segA.text segB.text
  let shouldDeleteB :=
    if strContains textA textB ∧ textB.length < textA.length then true
    else if sim > 17/20 then
      let scoreA := (segA.wordIndices.length : ℚ) + (idxA : ℚ) * (1/10)
      let scoreB := (segB.wordIndices.length : ℚ) + (idxB : ℚ) * (1/10)
      let audioDelete :=
        match audio with
        | some f =>
          decide (sim > 9/10) &&
          decide (audioEnergy f segA.startTime segA.endTime >
            audioEnergy f segB.startTime segB.endTime * (13/10))
        | none => false
      audioDelete || decide (scoreA > scoreB)
    else if segB.wordIndices.length < segA.wordIndices.length ∧
        ¬(endsWithAny (stripStr segB.text) ['.', '!', '?'] = true) ∧
        startsWith textA textB then true
    else false
  if shouldDeleteB then cd ++ [idxB]
  else
    let kA := getKeywords segA.text
    let kB := getKeywords segB.text
    let uniqueA := kA \ kB
    let uniqueB := kB \ kA
    if kA = kB ∧ segA.text.length < segB.text.length then cd ++ [idxA]
    else if uniqueA ≠ ∅ ∧ uniqueB ≠ ∅ then cd
    else if sim > 7/10 then
      let endsA := endsWithAny (stripStr segA.text) ['.', '!', '?']
      let endsB := endsWithAny (stripStr segB.text) ['.', '!', '?']
      if endsA ∧ ¬(endsB = true) then cd ++ [idxB]
      else if endsB ∧ ¬(endsA = true) then cd ++ [idxA]
      else cd
    else cd

/-- Inner loop over `idx_b` for a fixed `idx_a`.  Once `idx_a` is
discarded mid-loop, remaining `idx_b` are still compared against it,
as in the Python code (only `idx_b` membership is re-checked). -/
def takesInner (segs : List Seg) (audio : Audio) (idxA : Nat) :
    List Nat → List Nat → List Nat
  | [], cd => cd
  | idxB :: bs, cd =>
    if idxA = idxB ∨ cd.contains idxB then takesInner segs audio idxA bs cd
    else takesInner segs audio idxA bs (takesPairStep segs audio idxA idxB cd)

/-- Outer loop over `idx_a` of the pairwise cluster resolution. -/
def takesOuter (segs : List Seg) (audio : Audio) (cluster : List Nat) :
    List Nat → List Nat → List Nat
  | [], cd => cd
  | idxA :: as_, cd =>
    if cd.contains idxA then takesOuter segs audio cluster as_ cd
    else takesOuter segs audio cluster as_ (takesInner segs audio idxA cluster cd)

def insertAsc (x : Nat) : List Nat → List Nat
  | [] => [x]
  | y :: ys => if x ≤ y then x :: y :: ys else y :: insertAsc x ys

/-- `sorted(cluster)` (ascending insertion sort; the cluster is built
in ascending order, so this is the identity on actual inputs). -/
def sortAsc : List Nat → List Nat
  | [] => []
  | x :: xs => insertAsc x (sortAsc xs)

/-- The `while i < len(segments)` loop of `_process_incremental_takes`,
accumulating the global discard set.  The Python code keeps a separate
`cluster_discard` set, but every addition goes to both sets and
cluster members are never already in the global set when a cluster is
processed, so one threaded list is equivalent. -/
def takesGo (segs : List Seg) (audio : Audio) : List Nat → List Nat → List Nat
  | [], discard => discard
  | i :: is, discard =>
    if discard.contains i then takesGo segs audio is discard
    else
      let curr := segs.getD i segDefault
      let anchor := getPrefix curr.text
      if anchor = [] then takesGo segs audio is discard
      else
        let jwin := List.range' (i + 1) (min segs.length (i + 10) - (i + 1))
        let cluster := i :: clusterGo segs curr anchor discard jwin
        if cluster.length > 1 then
          let sorted := sortAsc cluster
          takesGo segs audio is (takesOuter segs audio sorted sorted discard)
        else takesGo segs audio is discard

/-- `_process_incremental_takes`. -/
def processIncrementalTakes (segs : List Seg) (audio : Audio) : List Seg :=
  if segs.length < 2 then segs
  else
    let discard := takesGo segs audio (List.range segs.length) []
    (List.range segs.length).filterMap (fun i =>
      if discard.contains i then none else some (segs.getD i segDefault))

/-- The length-weighted similarity threshold of `_remove_repetitions`. -/
def repThreshold (wc : Nat) : ℚ :=
  if wc ≤ 3 then 19/20 else if wc ≤ 6 then 9/10 else 17/20

/-- Forward scan of `_remove_repetitions` for one segment: stop at a
`> 60s` gap; on a similarity above the threshold, either discard the
later take (earlier is `> 20%` louder) and keep scanning, or report
that a later version exists (earlier segment to be dropped).  Returns
`(found_later_version, removed')`. -/
def repScan (segs : List Seg) (audio : Audio) (current : Seg) :
    List Nat → List Nat → Bool × List Nat
  | [], removed => (false, removed)
  | j :: js, removed =>
    if removed.contains j then repScan segs audio current js removed
    else
      let later := segs.getD j segDefault
      if later.startTime - current.endTime > 60 then (false, removed)
      else
        let similarity := calculateSimilarity current.text later.text
        if similarity > repThreshold current.wordIndices.length then
          match audio with
          | some f =>
            if audioEnergy f current.startTime current.endTime >
                audioEnergy f later.startTime later.endTime * (6/5) then
              repScan segs audio current js (removed ++ [j])
            else (true, removed)
          | none => (true, removed)
        else repScan segs audio current js removed

/-- The outer loop of `_remove_repetitions`. -/
def repGo (segs : List Seg) (audio : Audio) : List Nat → List Nat → List Seg
  | [], _ => []
  | i :: is, removed =>
    if removed.contains i then repGo segs audio is removed
    else
      let current := segs.getD i segDefault
      let js := List.range' (i + 1) (min segs.length (i + 10) - (i + 1))
      let r := repScan segs audio current js removed
      if r.1 then repGo segs audio is (r.2 ++ [i])
      else current :: repGo segs audio is r.2

/-- `_remove_repetitions`. -/
def removeRepetitions (segs : List Seg) (audio : Audio) : List Seg :=
  if segs.length ≤ 1 then segs
  else repGo segs audio (List.range segs.length) []

/-- `re.sub(r"[^\w\']", '', s)`: keep word characters and apostrophes. -/
def subNonWordApos (s : Str) : Str :=
  s.filter (fun c => isWordChar c || c = Char.ofNat 39)

/-- The `while i < n` scan of `_remove_phrase_stutters`: at each
position try repeat lengths `min(6, (n-i)//2)` down to 2; on a hit
mark the first copy for removal and jump to the second copy.  The fuel
(`n`) bounds the strictly advancing position. -/
def stutterScan (cleanWords : List Str) : Nat → Nat → List Nat → List Nat
  | 0, _, toRemove => toRemove
  | fuel + 1, i, toRemove =>
    let n := cleanWords.length
    if i < n then
      let maxK := min 6 ((n - i) / 2)
      let ks := (List.range' 2 (maxK - 1)).reverse
      let bestK := (ks.find? (fun k =>
        decide (i + 2 * k ≤ n) &&
        decide ((cleanWords.drop i).take k = (cleanWords.drop (i + k)).take k))).getD 0
      if bestK > 0 then
        stutterScan cleanWords fuel (i + bestK) (toRemove ++ List.range' i bestK)
      else stutterScan cleanWords fuel (i + 1) toRemove
    else toRemove

/-- `_remove_phrase_stutters`. -/
def removePhraseStutters (words : List Word) (segs : List Seg) : List Seg :=
  segs.filterMap (fun seg =>
    let indices := seg.wordIndices
    let cleanWords := indices.map (fun idx =>
      subNonWordApos (stripStr (lowerStr (words.getD idx wDefault).word)))
    let toRemove := stutterScan cleanWords cleanWords.length 0 []
    let newIndices := (List.range indices.length).filterMap (fun li =>
      if toRemove.contains li then none else some (indices.getD li 0))
    if newIndices ≠ [] then
      some { wordIndices := newIndices
             text := joinWords (newIndices.map (fun idx => (words.getD idx wDefault).word))
             startTime := (words.getD (newIndices.headD 0) wDefault).start
             endTime := (words.getD (newIndices.getLastD 0) wDefault).stop }
    else none)

/-- The filtering loop of `_semantic_filtering` over the thoughts:
returns the (possibly promoted) thoughts and the removal index list.
A `repetition` with a recorded source either aborts (source `> 50`
words and current `< 10`, or similarity `< 0.95`) or drops the source
and promotes the current thought; without a recorded source the
current thought itself is dropped when it has fewer than 8 words.
Small low-coherence fillers are dropped unless the audio oracle
reports energy `> 0.12`. -/
def semFilterLoop (audio : Audio) :
    List Nat → List Thought → List Nat → List Thought × List Nat
  | [], ts, rem => (ts, rem)
  | i :: is, ts, rem =>
    let t := ts.getD i tDefault
    if t.ttype = .repetition then
      match t.repeatedThoughtIdx with
      | some sourceIdx =>
        let sourceThought := ts.getD sourceIdx tDefault
        let thoughtSim := calculateSimilarity sourceThought.text t.text
        if (sourceThought.wordCount > 50 ∧ t.wordCount < 10) ∨ thoughtSim < 19/20 then
          semFilterLoop audio is ts rem
        else
          semFilterLoop audio is (ts.set i { t with ttype := .mainPoint })
            (rem ++ [sourceIdx])
      | none =>
        if t.wordCount < 8 then semFilterLoop audio is ts (rem ++ [i])
        else semFilterLoop audio is ts rem
    else if t.ttype = .filler then
      if t.wordCount ≤ 3 ∧ t.coherenceScore < 3/5 then
        let keepAnyway :=
          match audio with
          | some f => decide (audioEnergy f t.startTime t.endTime > 3/25)
          | none => false
        if keepAnyway then semFilterLoop audio is ts rem
        else semFilterLoop audio is ts (rem ++ [i])
      else semFilterLoop audio is ts rem
    else semFilterLoop audio is ts rem

/-- The `segments_by_first_idx` dict lookup: the segment whose first
word index is `origIdx` (a Python dict keeps the last writer, hence
the reversed search; first indices are distinct in practice).  A
segment with no word indices cannot be a dict entry. -/
def segsByFirstIdx (segs : List Seg) (origIdx : Nat) : Option Seg :=
  segs.reverse.find? (fun s => s.wordIndices.head? = some origIdx)

/-- `_semantic_filtering`: rebuild the word stream from the segments
(each word tagged with its original index), group it into thoughts,
run the filtering loop, then map surviving thoughts back to segments
through each thought word whose original index starts a segment. -/
def semanticFiltering (words : List Word) (audio : Audio) (segs : List Seg) :
    List Seg :=
  if segs = [] then []
  else
    let allWords := segs.flatMap (fun seg =>
      seg.wordIndices.map (fun idx => (words.getD idx wDefault, idx)))
    let thoughts := groupIntoThoughts (allWords.map (·.1))
    let step := semFilterLoop audio (List.range thoughts.length) thoughts []
    let ts := step.1
    let rem := step.2
    (List.range ts.length).flatMap (fun i =>
      if rem.contains i then []
      else
        (ts.getD i tDefault).wordIndices.filterMap (fun twIdx =>
          segsByFirstIdx segs (allWords.getD twIdx (wDefault, 0)).2))

/-- Uncaught Python exceptions surfaced by the pipeline model. -/
inductive PyErr
  | attributeError
deriving DecidableEq

/-- The state of a constructed `LLMEditor`: `__init__` assigns exactly
`self.api_key` (from the environment) and `self.model` (`None`, or a
Gemini handle when the key is present and configuration succeeds). -/
structure LLMEditor where
  apiKey : Option Str
  model : Option Str
deriving DecidableEq

/-- The attribute names assigned by `LLMEditor.__init__`. -/
def llmEditorAttrs : List String := ["api_key", "model"]

/-- `_llm_semantic_pass`.  The guard evaluates
`not segments or not getattr(self, 'llm_editor', None) or
not self.llm_editor.client` left to right; `client` is not an
attribute assigned by `LLMEditor.__init__`, so reaching the third
disjunct raises `AttributeError`.  (The branch behind a successful
attribute lookup is unreachable.) -/
def llmSemanticPass (llm : Option LLMEditor) (segs : List Seg) :
    Except PyErr (List Seg) :=
  if segs = [] then .ok segs
  else
    match llm with
    | none => .ok segs
    | some _ =>
      if "client" ∈ llmEditorAttrs then .ok segs
      else .error .attributeError

/-- A loaded ML cut-probability model: the opaque collaborator
`RoughCutModel.predict(segment, prev, next, audio_features)`.  `none`
covers both a missing `ml_model` and `ml_model.model is None`. -/
structure MLModel where
  predict : Seg → Option Seg → Option Seg → Option ℚ → ℚ

/-- `_apply_ml_overrides`: drop segments whose predicted cut
probability exceeds the threshold. -/
def applyMlOverrides (mlModel : Option MLModel) (audio : Audio)
    (mlCutThreshold : ℚ) (segs : List Seg) : List Seg :=
  match mlModel with
  | none => segs
  | some m =>
    if segs = [] then segs
    else
      (List.range segs.length).filterMap (fun i =>
        let seg := segs.getD i segDefault
        let prevSeg := if i > 0 then some (segs.getD (i - 1) segDefault) else none
        let nextSeg :=
          if i < segs.length - 1 then some (segs.getD (i + 1) segDefault) else none
        let audioFeats := audio.map (fun f => audioEnergy f seg.startTime seg.endTime)
        if m.predict seg prevSeg nextSeg audioFeats > mlCutThreshold then none
        else some seg)

/-- A final timeline clip emitted by `_finalize_segments`. -/
structure Clip where
  start : ℚ
  stop : ℚ
  text : Str
  wordCount : Nat
  wordIndices : List Nat
deriving DecidableEq

/-- `_finalize_segments`: drop deleted words, drop segments left with
fewer than `MIN_SEGMENT_LENGTH = 3` words, apply the 0.15s paddings
with the start clamped at 0. -/
def finalizeSegments (words : List Word) (segs : List Seg) : List Clip :=
  segs.filterMap (fun seg =>
    let filtered := seg.wordIndices.filter
      (fun idx => !(words.getD idx wDefault).isDeleted)
    if filtered.length < 3 then none
    else
      let actualStart := (words.getD (filtered.headD 0) wDefault).start
      let actualEnd := (words.getD (filtered.getLastD 0) wDefault).stop
      some { start := max 0 (actualStart - 3/20)
             stop := actualEnd + 3/20
             text := joinWords (filtered.map (fun idx => (words.getD idx wDefault).word))
             wordCount := filtered.length
             wordIndices := filtered })

/-- `ProfessionalRoughCutV2.analyze`: the full pipeline.
`_log_decisions` (a pure logging side effect) is not modelled. -/
def analyze (words : List Word) (audio : Audio) (llm : Option LLMEditor)
    (mlModel : Option MLModel) (useMl : Bool) (mlCutThreshold : ℚ) :
    Except PyErr (List Clip) :=
  let s1 := splitBySilence words audio
  let s2 := textualScrub s1
  let s3 := refineSegmentation words audio s2
  let s4 := processCutThatSignals words s3
  let s5 := removeIncompleteSentences words s4
  let s6 := processIncrementalTakes s5 audio
  let s7 := removeRepetitions s6 audio
  let s8 := removePhraseStutters words s7
  let s9 := semanticFiltering words audio s8
  match llmSemanticPass llm s9 with
  | .error e => .error e
  | .ok s10 =>
    let s11 := if useMl then applyMlOverrides mlModel audio mlCutThreshold s10 else s10
    .ok (finalizeSegments words s11)

/-! ### Spec-side formulas (for refinement comparisons)

The following definitions transcribe the *specification's* wording,
to be compared against the source-derived definitions above. -/

/-- The `has_subject` half of `_has_subject_verb`. -/
def hasSubjectToken (text : Str) : Bool :=
  (splitWS (lowerStr text)).any (fun w => tgSubjects.contains w)

/-- The `has_verb` half of `_has_subject_verb`. -/
def hasVerbToken (text : Str) : Bool :=
  (splitWS (lowerStr text)).any (fun w => tgVerbs.contains w)

/-- Modelled from the spec: coherence = 0.5, + 0.2 exactly when the
text contains a subject token *together with* a verb token
(a subject+verb pair), + 0.15 for terminal punctuation, + 0.1 for
word_count ≥ 3, + 0.05 for word_count ∈ [3, 30], clamped to [0, 1]. -/
def claimedCoherenceOf (t : Thought) : ℚ :=
  let s0 : ℚ := 1/2
  let s1 := s0 + (if hasSubjectToken t.text && hasVerbToken t.text then 1/5 else 0)
  let s2 := s1 + (if endsWithAny (rstripStr t.text) ['.', '!', '?'] then 3/20 else 0)
  let s3 := s2 + (if t.wordCount ≥ 3 then 1/10 else 0)
  let s4 := s3 + (if 3 ≤ t.wordCount ∧ t.wordCount ≤ 30 then 1/20 else 0)
  min 1 (max 0 s4)

/-- Modelled from the spec: similarity = max of (a) the structural
ratio — multiplied by 0.4 whenever keyword-Jaccard < 0.7 — and (b) the
keyword-Jaccard value. -/
def claimedSimilarity (text1 text2 : Str) : ℚ :=
  let s := structScoreOf text1 text2
  let j := keywordJaccard text1 text2
  max (if j < 7/10 then s * (2/5) else s) j

/-! ### Concrete transcripts used by the claim witnesses -/

def mkW (w : String) (s e : ℚ) : Word := ⟨strOf w, s, e, false⟩

/-- The spec's §8 cut-that transcript, with a preceding sentence for
its leading ellipsis; consecutive words are 0.1s apart. -/
def cutThatWords : List Word :=
  [mkW "Today" 0 (2/5), mkW "was" (1/2) (9/10), mkW "sunny." 1 (7/5),
   mkW "it" (3/2) (19/10), mkW "was" 2 (12/5), mkW "great." (5/2) (29/10),
   mkW "Actually" 3 (17/5), mkW "cut" (7/2) (39/10), mkW "that," 4 (22/5),
   mkW "it" (9/2) (49/10), mkW "was" 5 (27/5), mkW "terrible." (11/2) (59/10)]

/-- The spec's §8 divergence transcript "I want to buy milk." /
"I want to buy bread." with a 1.0s pause between the sentences. -/
def milkBreadWords : List Word :=
  [mkW "I" 0 (2/5), mkW "want" (1/2) (9/10), mkW "to" 1 (7/5),
   mkW "buy" (3/2) (19/10), mkW "milk." 2 (12/5),
   mkW "I" (17/5) (19/5), mkW "want" (39/10) (43/10), mkW "to" (22/5) (24/5),
   mkW "buy" (49/10) (53/10), mkW "bread." (27/5) (29/5)]

/-- The same two sentences with a 0.6s pause (below the 0.8s thought
boundary). -/
def milkBreadWordsClose : List Word :=
  [mkW "I" 0 (2/5), mkW "want" (1/2) (9/10), mkW "to" 1 (7/5),
   mkW "buy" (3/2) (19/10), mkW "milk." 2 (12/5),
   mkW "I" 3 (17/5), mkW "want" (7/2) (39/10), mkW "to" 4 (22/5),
   mkW "buy" (9/2) (49/10), mkW "bread." 5 (27/5)]

/-- "we need to find gold." / "we need to find silver." with a 1.0s
inter-sentence pause: the second sentence shares the 4-word prefix
"we need to find" with the first. -/
def goldSilverWords : List Word :=
  [mkW "we" 0 (2/5), mkW "need" (1/2) (9/10), mkW "to" 1 (7/5),
   mkW "find" (3/2) (19/10), mkW "gold." 2 (12/5),
   mkW "we" (17/5) (19/5), mkW "need" (39/10) (43/10), mkW "to" (22/5) (24/5),
   mkW "find" (49/10) (53/10), mkW "silver." (27/5) (29/5)]

/-- The two segments the earlier pipeline stages hand to
`_semantic_filtering` on `goldSilverWords`. -/
def goldSeg : Seg :=
  ⟨[0, 1, 2, 3, 4], 0, 12/5, strOf "we need to find gold."⟩

def silverSeg : Seg :=
  ⟨[5, 6, 7, 8, 9], 17/5, 29/5, strOf "we need to find silver."⟩

/-- Three words with a verb token (`went`) but no subject token. -/
def wentHomeWords : List Word :=
  [mkW "went" 0 (2/5), mkW "home" (1/2) (9/10), mkW "fast" 1 (7/5)]

/-- Words for the C10 witness: an unpunctuated 3-word fragment
followed by a restart. -/
def restartWords : List Word :=
  [mkW "I" 0 (2/5), mkW "went" (1/2) (9/10), mkW "to" 1 (7/5),
   mkW "actually" 3 (17/5), mkW "I" (7/2) (39/10), mkW "went" 4 (22/5),
   mkW "to" (9/2) (49/10), mkW "the" 5 (27/5), mkW "store." (11/2) (59/10)]

def restartSegs : List Seg :=
  [⟨[0, 1, 2], 0, 7/5, strOf "I went to"⟩,
   ⟨[3, 4, 5, 6, 7, 8], 3, 59/10, strOf "actually I went to the store."⟩]

/-- An adversarial transcript whose first "word" contains embedded
whitespace and sentence punctuation: the cut-that index arithmetic
then counts more text tokens than word indices and duplicates index 3
in the rebuilt segment. -/
def c4AdvWords : List Word :=
  [mkW "a. b. c. d. e" 0 (1/2), mkW "cut" (1/2) 1, mkW "that" 1 (3/2),
   mkW "x" (3/2) (9/5), mkW "y" (9/5) (21/10), mkW "z" (21/10) (12/5)]

/-! ### Supporting lemmas -/

theorem rfindChar_eq_neg_one {s : Str} {c : Char}
    (h : ∀ x ∈ s, x ≠ c) : rfindChar s c = -1 := by
  unfold rfindChar
  have hf : (List.range s.length).filter
      (fun i => decide (s.getD i (Char.ofNat 0) = c)) = [] := by
    apply List.filter_eq_nil.2
    intro i hi
    simp only [List.mem_range] at hi
    have : s.getD i (Char.ofNat 0) ∈ s := by
      rw [List.getD_eq_getElem s _ hi]
      exact List.getElem_mem _
    simpa using h _ this
  rw [hf]

theorem mem_scoreCoherence {ts : List Thought} {t : Thought}
    (h : t ∈ scoreCoherence ts) : t.coherenceScore = coherenceOf t := by
  unfold scoreCoherence at h
  obtain ⟨u, _, rfl⟩ := List.mem_map.1 h
  rfl

theorem coherence_of_groupIntoThoughts {words : List Word} {t : Thought}
    (h : t ∈ groupIntoThoughts words) : t.coherenceScore = coherenceOf t := by
  unfold groupIntoThoughts at h
  split at h
  · simp at h
  · unfold classifyThoughtTypes at h
    obtain ⟨i, hi, rfl⟩ := List.mem_map.1 h
    simp only [List.mem_range] at hi
    have hmem : (scoreCoherence (mergeSentencesIntoThoughts
        (groupIntoSentences words))).getD i tDefault ∈
        scoreCoherence (mergeSentencesIntoThoughts (groupIntoSentences words)) := by
      rw [List.getD_eq_getElem _ _ hi]
      exact List.getElem_mem _
    show ((scoreCoherence (mergeSentencesIntoThoughts
        (groupIntoSentences words))).getD i tDefault).coherenceScore =
      coherenceOf ((scoreCoherence (mergeSentencesIntoThoughts
        (groupIntoSentences words))).getD i tDefault)
    exact mem_scoreCoherence hmem

theorem mergeGo_createThought {t : Thought} :
    ∀ {rest : List Sentence} {prev : Sentence} {group : List Sentence},
      t ∈ mergeGo prev group rest → ∃ g, t = createThought g := by
  intro rest
  induction rest with
  | nil =>
    intro prev group h
    rw [mergeGo] at h
    rcases List.mem_singleton.1 h with rfl
    exact ⟨group, rfl⟩
  | cons s rs ih =>
    intro prev group h
    rw [mergeGo] at h
    split at h
    · exact ih h
    · rcases List.mem_cons.1 h with rfl | h
      · exact ⟨group, rfl⟩
      · exact ih h

theorem grouper_repeatedThoughtIdx_none (words : List Word) :
    ∀ t ∈ groupIntoThoughts words, t.repeatedThoughtIdx = none := by
  intro t ht
  unfold groupIntoThoughts at ht
  split at ht
  · simp at ht
  · unfold classifyThoughtTypes at ht
    obtain ⟨i, hi, rfl⟩ := List.mem_map.1 ht
    simp only [List.mem_range] at hi
    show ((scoreCoherence (mergeSentencesIntoThoughts
      (groupIntoSentences words))).getD i tDefault).repeatedThoughtIdx = none
    have hmem : (scoreCoherence (mergeSentencesIntoThoughts
        (groupIntoSentences words))).getD i tDefault ∈
        scoreCoherence (mergeSentencesIntoThoughts (groupIntoSentences words)) := by
      rw [List.getD_eq_getElem _ _ hi]
      exact List.getElem_mem _
    obtain ⟨u, hu, huq⟩ := List.mem_map.1 hmem
    rw [← huq]
    show u.repeatedThoughtIdx = none
    unfold mergeSentencesIntoThoughts at hu
    split at hu
    · simp at hu
    · obtain ⟨g, rfl⟩ := mergeGo_createThought hu
      rfl

/-- The post-classification removal loop of `_semantic_filtering`
never mutates the thought list and only removes small repetition
thoughts themselves or small low-coherence fillers, when no thought
carries a recorded source index. -/
theorem semFilterLoop_no_source {audio : Audio} {ts : List Thought}
    (hnone : ∀ i, (ts.getD i tDefault).repeatedThoughtIdx = none) :
    ∀ (l rem : List Nat),
      (semFilterLoop audio l ts rem).1 = ts ∧
      (∀ j ∈ (semFilterLoop audio l ts rem).2, j ∈ rem ∨
        (((ts.getD j tDefault).ttype = .repetition ∧
          (ts.getD j tDefault).wordCount < 8) ∨
         ((ts.getD j tDefault).ttype = .filler ∧
          (ts.getD j tDefault).wordCount ≤ 3 ∧
          (ts.getD j tDefault).coherenceScore < 3/5))) := by
  intro l
  induction l with
  | nil => intro rem; exact ⟨rfl, fun j hj => Or.inl hj⟩
  | cons i is ih =>
    intro rem
    simp only [semFilterLoop]
    rw [hnone i]
    by_cases hrep : (ts.getD i tDefault).ttype = .repetition
    · simp only [if_pos hrep]
      by_cases hwc : (ts.getD i tDefault).wordCount < 8
      · simp only [if_pos hwc]
        refine ⟨(ih _).1, fun j hj => ?_⟩
        rcases (ih _).2 j hj with hj' | hj'
        · rcases List.mem_append.1 hj' with hj'' | hj''
          · exact Or.inl hj''
          · rcases List.mem_singleton.1 hj'' with rfl
            exact Or.inr (Or.inl ⟨hrep, hwc⟩)
        · exact Or.inr hj'
      · simp only [if_neg hwc]
        exact ih rem
    · simp only [if_neg hrep]
      by_cases hfil : (ts.getD i tDefault).ttype = .filler
      · simp only [if_pos hfil]
        by_cases hsm : (ts.getD i tDefault).wordCount ≤ 3 ∧
            (ts.getD i tDefault).coherenceScore < 3/5
        · simp only [if_pos hsm]
          split
          · exact ih rem
          · refine ⟨(ih _).1, fun j hj => ?_⟩
            rcases (ih _).2 j hj with hj' | hj'
            · rcases List.mem_append.1 hj' with hj'' | hj''
              · exact Or.inl hj''
              · rcases List.mem_singleton.1 hj'' with rfl
                exact Or.inr (Or.inr ⟨hfil, hsm⟩)
            · exact Or.inr hj'
        · simp only [if_neg hsm]
          exact ih rem
      · simp only [if_neg hfil]
        exact ih rem

/-- The composite condition under which `_split_by_silence` ends the
current segment after word `m`: not the last word, gap above the 2.0s
threshold, and no audio-energy veto. -/
def silenceFlush (words : List Word) (audio : Audio) (m : Nat) : Prop :=
  m < words.length - 1 ∧
  (words.getD (m + 1) wDefault).start - (words.getD m wDefault).stop > 2 ∧
  (match audio with
   | none => true
   | some f => !decide (audioEnergy f (words.getD m wDefault).stop
       (words.getD (m + 1) wDefault).start > 2/25)) = true

theorem silenceGo_flatten (words : List Word) (audio : Audio) :
    ∀ (k m : Nat) (cur : List Nat) (startIdx : Nat),
      ((silenceGo words audio (List.range' m k) cur startIdx).map
        Seg.wordIndices).flatten = cur ++ List.range' m k := by
  intro k
  induction k with
  | zero =>
    intro m cur s
    by_cases hc : cur = [] <;> simp [silenceGo, hc, mkSilenceSeg]
  | succ k ih =>
    intro m cur s
    rw [List.range'_succ]
    simp only [silenceGo]
    split
    · split
      · split
        · simp [mkSilenceSeg, ih]
        · rw [ih]; simp
      · rw [ih]; simp
    · rw [ih]; simp

theorem silenceGo_no_split (words : List Word) (audio : Audio) (i : Nat)
    (hB : ¬silenceFlush words audio i) (hin : i + 1 < words.length) :
    ∀ (k m : Nat) (cur : List Nat) (startIdx : Nat),
      m + k = words.length →
      (i ∈ cur → m = i + 1 ∨ i + 1 ∈ cur) →
      ∀ s ∈ silenceGo words audio (List.range' m k) cur startIdx,
        i ∈ s.wordIndices → i + 1 ∈ s.wordIndices := by
  intro k
  induction k with
  | zero =>
    intro m cur startIdx hmk hcur s hs hi
    rw [List.range'_zero] at hs
    simp only [silenceGo] at hs
    split at hs
    · simp at hs
    · rcases List.mem_singleton.1 hs with rfl
      rcases hcur hi with h | h
      · omega
      · exact h
  | succ k ih =>
    intro m cur startIdx hmk hcur s hs hi
    rw [List.range'_succ] at hs
    simp only [silenceGo] at hs
    have hcur1 : i ∈ cur ++ [m] → (m + 1) = i + 1 ∨ i + 1 ∈ cur ++ [m] := by
      intro hic
      rcases List.mem_append.1 hic with hic | hic
      · rcases hcur hic with h | h
        · exact Or.inr (List.mem_append.2 (Or.inr (by simp [h])))
        · exact Or.inr (List.mem_append.2 (Or.inl h))
      · rcases List.mem_singleton.1 hic with rfl
        exact Or.inl rfl
    split at hs
    · split at hs
      · split at hs
        · -- flush branch
          rename_i hlt hgap hsil
          rcases List.mem_cons.1 hs with rfl | hs'
          · -- s is the flushed segment, word indices cur ++ [m]
            simp only [mkSilenceSeg] at hi ⊢
            rcases List.mem_append.1 hi with hic | hic
            · rcases hcur hic with h | h
              · exact List.mem_append.2 (Or.inr (by simp [h]))
              · exact List.mem_append.2 (Or.inl h)
            · rcases List.mem_singleton.1 hic with rfl
              exact absurd ⟨hlt, hgap, hsil⟩ hB
          · exact ih (m + 1) [] (m + 1) (by omega) (by simp) s hs' hi
        · exact ih (m + 1) (cur ++ [m]) startIdx (by omega) hcur1 s hs hi
      · exact ih (m + 1) (cur ++ [m]) startIdx (by omega) hcur1 s hs hi
    · exact ih (m + 1) (cur ++ [m]) startIdx (by omega) hcur1 s hs hi

theorem silenceGo_split (words : List Word) (audio : Audio) (i : Nat)
    (hB : silenceFlush words audio i) :
    ∀ (k m : Nat) (cur : List Nat) (startIdx : Nat),
      (∀ x ∈ cur, x < m) →
      (m > i → i ∉ cur) →
      ∀ s ∈ silenceGo words audio (List.range' m k) cur startIdx,
        ¬(i ∈ s.wordIndices ∧ i + 1 ∈ s.wordIndices) := by
  intro k
  induction k with
  | zero =>
    intro m cur startIdx hlt hE s hs
    rw [List.range'_zero] at hs
    simp only [silenceGo] at hs
    split at hs
    · simp at hs
    · rcases List.mem_singleton.1 hs with rfl
      rintro ⟨hi, _⟩
      exact hE (hlt i hi) hi
  | succ k ih =>
    intro m cur startIdx hlt hE s hs
    have hlt1 : ∀ x ∈ cur ++ [m], x < m + 1 := by
      intro x hx
      rcases List.mem_append.1 hx with hx | hx
      · exact Nat.lt_succ_of_lt (hlt x hx)
      · rcases List.mem_singleton.1 hx with rfl; omega
    rw [List.range'_succ] at hs
    simp only [silenceGo] at hs
    have hboth : ¬(i ∈ cur ++ [m] ∧ i + 1 ∈ cur ++ [m]) := by
      rintro ⟨hi, hi1⟩
      rcases List.mem_append.1 hi with hic | hic
      · exact hE (hlt i hic) hic
      · rcases List.mem_singleton.1 hic with rfl
        rcases List.mem_append.1 hi1 with hic' | hic'
        · exact absurd (hlt _ hic') (by omega)
        · rcases List.mem_singleton.1 hic' with h
          omega
    split at hs
    · split at hs
      · split at hs
        · rcases List.mem_cons.1 hs with rfl | hs'
          · simpa only [mkSilenceSeg] using hboth
          · exact ih (m + 1) [] (m + 1) (by simp) (by simp) s hs'
        · -- energy veto branch: m cannot be i here
          rename_i hlt' hgap hsil
          have hmi : m ≠ i := by
            rintro rfl
            exact hsil hB.2.2
          refine ih (m + 1) (cur ++ [m]) startIdx hlt1 (fun hgt hic => ?_) s hs
          rcases List.mem_append.1 hic with hic | hic
          · exact hE (hlt i hic) hic
          · rcases List.mem_singleton.1 hic with rfl
            exact hmi rfl
      · rename_i hlt' hgap
        have hmi : m ≠ i := by
          rintro rfl
          exact hgap hB.2.1
        refine ih (m + 1) (cur ++ [m]) startIdx hlt1 (fun hgt hic => ?_) s hs
        rcases List.mem_append.1 hic with hic | hic
        · exact hE (hlt i hic) hic
        · rcases List.mem_singleton.1 hic with rfl
          exact hmi rfl
    · rename_i hlast
      have hmi : m ≠ i := by
        rintro rfl
        exact hlast hB.1
      refine ih (m + 1) (cur ++ [m]) startIdx hlt1 (fun hgt hic => ?_) s hs
      rcases List.mem_append.1 hic with hic | hic
      · exact hE (hlt i hic) hic
      · rcases List.mem_singleton.1 hic with rfl
        exact hmi rfl

theorem splitBySilence_flatten (words : List Word) (audio : Audio) :
    ((splitBySilence words audio).map Seg.wordIndices).flatten =
      List.range words.length := by
  unfold splitBySilence
  split
  · rename_i h; subst h; rfl
  · rw [List.range_eq_range']
    exact silenceGo_flatten words audio _ 0 [] 0

/-! ### Conservation lemmas (word-index sublist preservation, C4) -/

theorem flatten_sublist_of_sublist {α : Type} {l₁ l₂ : List (List α)}
    (h : l₁.Sublist l₂) : l₁.flatten.Sublist l₂.flatten := by
  induction h with
  | slnil => exact List.Sublist.refl _
  | cons a _ ih => exact ih.trans (List.sublist_append_right _ _)
  | cons₂ a _ ih => exact ih.append_left a

theorem filterMap_flatten_sublist {α β : Type} (g₁ : α → List Nat)
    (g₂ : β → List Nat) (f : α → Option β) (l : List α)
    (h : ∀ a ∈ l, ∀ b, f a = some b → (g₂ b).Sublist (g₁ a)) :
    ((l.filterMap f).map g₂).flatten.Sublist ((l.map g₁).flatten) := by
  induction l with
  | nil => simp
  | cons x xs ih =>
    rw [List.filterMap_cons, List.map_cons, List.flatten_cons]
    have ih' := ih (fun a ha b hb => h a (List.mem_cons_of_mem _ ha) b hb)
    cases hfx : f x with
    | none => exact ih'.trans (List.sublist_append_right _ _)
    | some b =>
      rw [List.map_cons, List.flatten_cons]
      exact (h x (List.mem_cons_self _ _) b hfx).append ih'

theorem rangeFilterMap_flatten_sublist {β : Type} (g₂ : β → List Nat)
    (l : List Seg) (f : Nat → Option β)
    (h : ∀ i, i < l.length → ∀ b, f i = some b →
      (g₂ b).Sublist ((l.getD i segDefault).wordIndices)) :
    (((List.range l.length).filterMap f).map g₂).flatten.Sublist
      ((l.map Seg.wordIndices).flatten) := by
  induction l generalizing f with
  | nil => simp
  | cons x xs ih =>
    rw [List.length_cons, List.range_succ_eq_map, List.filterMap_cons,
      List.filterMap_map, List.map_cons, List.flatten_cons]
    have step : ∀ i, i < xs.length → ∀ b, (f ∘ (· + 1)) i = some b →
        (g₂ b).Sublist ((xs.getD i segDefault).wordIndices) := by
      intro i hi b hb
      have := h (i + 1) (by simpa using Nat.succ_lt_succ hi) b hb
      simpa [List.getD_cons_succ] using this
    have ih' := ih (f ∘ (· + 1)) step
    cases hf0 : f 0 with
    | none =>
      simp only [hf0]
      exact ih'.trans (List.sublist_append_right _ _)
    | some b =>
      simp only [hf0, List.map_cons, List.flatten_cons]
      refine List.Sublist.append ?_ ih'
      simpa using h 0 (by simp) b hf0

theorem map_getD_range (l : List Seg) :
    (List.range l.length).map (fun i => l.getD i segDefault) = l := by
  induction l with
  | nil => rfl
  | cons x xs ih =>
    rw [List.length_cons, List.range_succ_eq_map, List.map_cons, List.map_map]
    have hc : ((fun i => (x :: xs).getD i segDefault) ∘ (· + 1)) =
        (fun i => xs.getD i segDefault) := by
      funext i
      simp [List.getD_cons_succ]
    rw [hc, ih]
    simp

theorem nodup_filter_eq_single {l : List Nat} (h : l.Nodup) (a : Nat) :
    l.filter (fun x => decide (x = a)) = if a ∈ l then [a] else [] := by
  induction l with
  | nil => simp
  | cons x xs ih =>
    have hx : x ∉ xs := (List.nodup_cons.1 h).1
    have ih' := ih (List.nodup_cons.1 h).2
    rw [List.filter_cons, ih']
    by_cases hxa : x = a
    · subst hxa
      simp [hx]
    · by_cases ha : a ∈ xs
      · simp [hxa, ha]
      · simp [hxa, ha, Ne.symm hxa]

/-! #### String lemmas for the cut-that index arithmetic -/

theorem splitWSAux_tokens {s : Str} :
    ∀ {acc : Str}, (∀ c ∈ acc, isSpaceChar c = false) →
      ∀ t ∈ splitWSAux s acc, t ≠ [] ∧ ∀ c ∈ t, isSpaceChar c = false := by
  induction s with
  | nil =>
    intro acc hacc t ht
    rw [splitWSAux] at ht
    split at ht
    · simp at ht
    · rcases List.mem_singleton.1 ht with rfl
      refine ⟨by simpa using ‹¬_ = _›, fun c hc => hacc c (List.mem_reverse.1 hc)⟩
  | cons c s ih =>
    intro acc hacc t ht
    rw [splitWSAux] at ht
    by_cases hc : isSpaceChar c = true
    · rw [if_pos hc] at ht
      rcases List.mem_append.1 ht with ht' | ht'
      · split at ht'
        · simp at ht'
        · rcases List.mem_singleton.1 ht' with rfl
          exact ⟨by simpa using ‹¬_ = _›,
            fun d hd => hacc d (List.mem_reverse.1 hd)⟩
      · exact ih (by simp) t ht'
    · rw [if_neg hc] at ht
      refine ih ?_ t ht
      intro d hd
      rcases List.mem_cons.1 hd with rfl | hd
      · exact Bool.eq_false_iff.2 hc
      · exact hacc d hd

theorem splitWS_tokens {s : Str} :
    ∀ t ∈ splitWS s, t ≠ [] ∧ ∀ c ∈ t, isSpaceChar c = false :=
  splitWSAux_tokens (by simp)

theorem splitWSAux_clean_end :
    ∀ (t : Str), (∀ c ∈ t, isSpaceChar c = false) →
      ∀ acc, splitWSAux t acc =
        if acc.reverse ++ t = [] then [] else [acc.reverse ++ t] := by
  intro t
  induction t with
  | nil =>
    intro _ acc
    rw [splitWSAux]
    by_cases hacc : acc = [] <;> simp [hacc]
  | cons c t ih =>
    intro hcl acc
    have hc : isSpaceChar c = false := hcl c (by simp)
    rw [splitWSAux, if_neg (by simp [hc])]
    rw [ih (fun d hd => hcl d (List.mem_cons_of_mem _ hd)) (c :: acc)]
    rw [if_neg (by simp), if_neg (by simp)]
    simp

theorem splitWSAux_clean_mid :
    ∀ (t : Str), (∀ c ∈ t, isSpaceChar c = false) →
      ∀ (acc r : Str), splitWSAux (t ++ ' ' :: r) acc =
        (if acc.reverse ++ t = [] then [] else [acc.reverse ++ t]) ++
          splitWSAux r [] := by
  intro t
  induction t with
  | nil =>
    intro _ acc r
    rw [List.nil_append, splitWSAux,
      if_pos (show isSpaceChar ' ' = true from rfl)]
    by_cases hacc : acc = [] <;> simp [hacc]
  | cons c t ih =>
    intro hcl acc r
    have hc : isSpaceChar c = false := hcl c (by simp)
    rw [List.cons_append, splitWSAux, if_neg (by simp [hc])]
    rw [ih (fun d hd => hcl d (List.mem_cons_of_mem _ hd)) (c :: acc) r]
    rw [if_neg (by simp), if_neg (by simp)]
    simp

theorem joinWords_cons_cons (a b : Str) (l : List Str) :
    joinWords (a :: b :: l) = a ++ ' ' :: joinWords (b :: l) := by
  simp [joinWords, List.intercalate, List.intersperse]

theorem splitWS_joinWords :
    ∀ (ts : List Str), (∀ t ∈ ts, ∀ c ∈ t, isSpaceChar c = false) →
      splitWS (joinWords ts) = ts.filter (fun t => !decide (t = [])) := by
  intro ts
  induction ts with
  | nil => intro _; rfl
  | cons t ts ih =>
    intro hcl
    cases ts with
    | nil =>
      have hj : joinWords [t] = t := by simp [joinWords, List.intercalate]
      rw [hj]
      unfold splitWS
      rw [splitWSAux_clean_end t (hcl t (by simp)) []]
      by_cases h : t = [] <;> simp [h]
    | cons u ts' =>
      rw [joinWords_cons_cons]
      unfold splitWS
      rw [splitWSAux_clean_mid t (hcl t (by simp)) [] (joinWords (u :: ts'))]
      have ihe := ih (fun x hx c hc => hcl x (List.mem_cons_of_mem _ hx) c hc)
      unfold splitWS at ihe
      rw [ihe, List.filter_cons]
      by_cases h : t = [] <;> simp [h, List.filter_cons]

theorem one_le_splitWSAux_length {s : Str} :
    ∀ {acc : Str}, acc ≠ [] → 1 ≤ (splitWSAux s acc).length := by
  induction s with
  | nil =>
    intro acc hacc
    rw [splitWSAux, if_neg hacc]
    simp
  | cons c s ih =>
    intro acc hacc
    rw [splitWSAux]
    by_cases hc : isSpaceChar c = true
    · rw [if_pos hc, if_neg hacc, List.length_append]
      simp
    · rw [if_neg hc]
      exact ih (by simp)

theorem splitWSAux_take_le (s : Str) :
    ∀ (k : Nat) (acc : Str),
      (splitWSAux (s.take k) acc).length ≤ (splitWSAux s acc).length := by
  induction s with
  | nil => intro k acc; simp
  | cons c s ih =>
    intro k acc
    cases k with
    | zero =>
      rw [List.take_zero]
      conv_lhs => rw [splitWSAux]
      conv_rhs => rw [splitWSAux]
      by_cases hc : isSpaceChar c = true
      · rw [if_pos hc, List.length_append]
        exact Nat.le_add_right _ _
      · rw [if_neg hc]
        by_cases hacc : acc = []
        · simp [hacc]
        · rw [if_neg hacc]
          exact one_le_splitWSAux_length (by simp)
    | succ k =>
      rw [List.take_succ_cons]
      conv_lhs => rw [splitWSAux]
      conv_rhs => rw [splitWSAux]
      by_cases hc : isSpaceChar c = true
      · rw [if_pos hc, if_pos hc, List.length_append, List.length_append]
        exact Nat.add_le_add_left (ih k []) _
      · rw [if_neg hc, if_neg hc]
        exact ih k (c :: acc)

theorem splitWS_take_le (s : Str) (k : Nat) :
    (splitWS (s.take k)).length ≤ (splitWS s).length :=
  splitWSAux_take_le s k []

theorem splitWS_prefix_le {s₁ s₂ : Str} (h : s₁.IsPrefix s₂) :
    (splitWS s₁).length ≤ (splitWS s₂).length := by
  obtain ⟨r, rfl⟩ := h
  have : s₁ = (s₁ ++ r).take s₁.length := by
    rw [List.take_append_of_le_length (le_refl _), List.take_length]
  calc (splitWS s₁).length = (splitWS ((s₁ ++ r).take s₁.length)).length := by rw [← this]
    _ ≤ _ := splitWS_take_le _ _

theorem splitWS_dropWhile_space (s : Str) :
    splitWS (s.dropWhile isSpaceChar) = splitWS s := by
  induction s with
  | nil => rfl
  | cons c s ih =>
    by_cases hc : isSpaceChar c = true
    · rw [List.dropWhile_cons_of_pos hc, ih]
      unfold splitWS
      rw [splitWSAux]
      simp [hc]
    · rw [List.dropWhile_cons_of_neg (by simp [hc])]

theorem splitWS_stripStr_le (s : Str) :
    (splitWS (stripStr s)).length ≤ (splitWS s).length := by
  unfold stripStr
  have hpre : (((s.dropWhile isSpaceChar).reverse.dropWhile isSpaceChar).reverse).IsPrefix
      (s.dropWhile isSpaceChar) := by
    have hsuf : ((s.dropWhile isSpaceChar).reverse.dropWhile
        isSpaceChar).IsSuffix (s.dropWhile isSpaceChar).reverse :=
      List.dropWhile_suffix isSpaceChar
    rw [← List.reverse_prefix] at hsuf
    simpa using hsuf
  calc (splitWS ((s.dropWhile isSpaceChar).reverse.dropWhile isSpaceChar).reverse).length
      ≤ (splitWS (s.dropWhile isSpaceChar)).length := splitWS_prefix_le hpre
    _ = (splitWS s).length := by rw [splitWS_dropWhile_space]

theorem cutScan_length (wordsList : List Str) :
    ∀ (l : List Nat) (st : CutScanState),
      (cutScan wordsList l st).before.length +
        (cutScan wordsList l st).after.length ≤
      st.before.length + st.after.length + l.length := by
  intro l
  induction l with
  | nil => intro st; simp [cutScan]
  | cons i is ih =>
    intro st
    simp only [cutScan]
    by_cases h1 : st.skipNext = true
    · rw [if_pos h1]
      have := ih { st with skipNext := false }
      simp only [List.length_cons] at this ⊢
      omega
    · rw [if_neg h1]
      by_cases h2 : subNonWord (lowerStr (wordsList.getD i [])) = strOf "cut" ∧
          ¬st.inAfter = true ∧ i < wordsList.length - 1 ∧
          (subNonWord (lowerStr (wordsList.getD (i + 1) [])) = strOf "that" ∨
           subNonWord (lowerStr (wordsList.getD (i + 1) [])) = strOf "this")
      · rw [if_pos h2]
        have := ih { st with inAfter := true, skipNext := true }
        simp only [List.length_cons] at this ⊢
        omega
      · rw [if_neg h2]
        by_cases h3 : st.inAfter = true
        · rw [if_pos h3]
          have := ih { st with after := st.after ++ [wordsList.getD i []] }
          simp only [List.length_append, List.length_cons, List.length_nil] at this ⊢
          omega
        · rw [if_neg h3]
          have := ih { st with before := st.before ++ [wordsList.getD i []] }
          simp only [List.length_append, List.length_cons, List.length_nil] at this ⊢
          omega

theorem cutScan_clean (wordsList : List Str)
    (hcl : ∀ i, ∀ c ∈ wordsList.getD i [], isSpaceChar c = false) :
    ∀ (l : List Nat) (st : CutScanState),
      (∀ t ∈ st.before, ∀ c ∈ t, isSpaceChar c = false) →
      (∀ t ∈ st.after, ∀ c ∈ t, isSpaceChar c = false) →
      (∀ t ∈ (cutScan wordsList l st).before, ∀ c ∈ t, isSpaceChar c = false) ∧
      (∀ t ∈ (cutScan wordsList l st).after, ∀ c ∈ t, isSpaceChar c = false) := by
  intro l
  induction l with
  | nil => intro st hb ha; exact ⟨hb, ha⟩
  | cons i is ih =>
    intro st hb ha
    simp only [cutScan]
    by_cases h1 : st.skipNext = true
    · rw [if_pos h1]
      exact ih _ hb ha
    · rw [if_neg h1]
      by_cases h2 : subNonWord (lowerStr (wordsList.getD i [])) = strOf "cut" ∧
          ¬st.inAfter = true ∧ i < wordsList.length - 1 ∧
          (subNonWord (lowerStr (wordsList.getD (i + 1) [])) = strOf "that" ∨
           subNonWord (lowerStr (wordsList.getD (i + 1) [])) = strOf "this")
      · rw [if_pos h2]
        exact ih _ hb ha
      · rw [if_neg h2]
        by_cases h3 : st.inAfter = true
        · rw [if_pos h3]
          refine ih _ hb ?_
          intro t ht
          rcases List.mem_append.1 ht with ht | ht
          · exact ha t ht
          · rcases List.mem_singleton.1 ht with rfl
            exact hcl i
        · rw [if_neg h3]
          refine ih _ ?_ ha
          intro t ht
          rcases List.mem_append.1 ht with ht | ht
          · exact hb t ht
          · rcases List.mem_singleton.1 ht with rfl
            exact hcl i

theorem take_drop_if_sublist (l : List Nat) (a c : Nat) (h : a + c ≤ l.length) :
    ((if a > 0 then l.take a else []) ++
      (if c > 0 then l.drop (l.length - c) else [])).Sublist l := by
  have h1 : (if a > 0 then l.take a else []).Sublist (l.take (l.length - c)) := by
    split
    · have he : l.take a = (l.take (l.length - c)).take a := by
        rw [List.take_take, min_eq_left (by omega)]
      rw [he]
      exact (List.take_prefix _ _).sublist
    · exact List.nil_sublist _
  have h2 : (if c > 0 then l.drop (l.length - c) else []).Sublist
      (l.drop (l.length - c)) := by
    split
    · exact List.Sublist.refl _
    · exact List.nil_sublist _
  have := h1.append h2
  rwa [List.take_append_drop] at this

theorem processCutSegment_sublist (words : List Word) (seg : Seg)
    (htext : seg.text = joinWords (seg.wordIndices.map
      (fun idx => (words.getD idx wDefault).word)))
    (hwclean : ∀ idx : Nat, ∀ c ∈ (words.getD idx wDefault).word,
      isSpaceChar c = false) :
    ∀ b, processCutSegment words seg = some b →
      b.wordIndices.Sublist seg.wordIndices := by
  intro b hb
  simp only [processCutSegment] at hb
  split at hb
  case isFalse =>
    rcases Option.some.inj hb with rfl
    exact List.Sublist.refl _
  case isTrue =>
    -- the trailing-punctuation choice for the search text and the
    -- last-sentence-end test do not matter for the index bound
    split at hb
    all_goals
      split at hb
      all_goals
        split at hb
        case isFalse => simp at hb
        case isTrue =>
          rcases Option.some.inj hb with rfl
          dsimp only
          -- the new index list is (prefix take) ++ (suffix drop)
          apply take_drop_if_sublist
          -- bound: keptBeforeCount + afterCount ≤ |word_indices|
          set wordsList := splitWS seg.text with hwl
          set st := cutScan wordsList (List.range wordsList.length)
            ⟨[], [], false, false⟩ with hst
          have htok : ∀ t ∈ seg.wordIndices.map
              (fun idx => (words.getD idx wDefault).word),
              ∀ c ∈ t, isSpaceChar c = false := by
            intro t ht
            obtain ⟨idx, _, rfl⟩ := List.mem_map.1 ht
            exact hwclean idx
          have hWLlen : wordsList.length ≤ seg.wordIndices.length := by
            rw [hwl, htext, splitWS_joinWords _ htok]
            calc (List.filter _ _).length ≤ (seg.wordIndices.map
                (fun idx => (words.getD idx wDefault).word)).length :=
                  List.length_filter_le _ _
              _ = seg.wordIndices.length := List.length_map _ _
          have hstlen : st.before.length + st.after.length ≤ wordsList.length := by
            have := cutScan_length wordsList (List.range wordsList.length)
              ⟨[], [], false, false⟩
            simpa using this
          have hclWL : ∀ i, ∀ c ∈ wordsList.getD i [], isSpaceChar c = false := by
            intro i c hc
            by_cases hi : i < wordsList.length
            · rw [List.getD_eq_getElem _ _ hi] at hc
              exact (splitWS_tokens _ (List.getElem_mem _)).2 c hc
            · rw [List.getD_eq_default _ _ (le_of_not_lt hi)] at hc
              simp at hc
          have hstclean := cutScan_clean wordsList hclWL
            (List.range wordsList.length) ⟨[], [], false, false⟩
            (by simp) (by simp)
          -- keptBeforeCount is at most |st.before|
          have hkb : ∀ (kb : Str), (kb.IsPrefix (stripStr (joinWords st.before))) →
              (splitWS (stripStr kb)).length ≤ st.before.length := by
            intro kb hpre
            calc (splitWS (stripStr kb)).length ≤ (splitWS kb).length :=
                  splitWS_stripStr_le kb
              _ ≤ (splitWS (stripStr (joinWords st.before))).length :=
                  splitWS_prefix_le hpre
              _ ≤ (splitWS (joinWords st.before)).length :=
                  splitWS_stripStr_le _
              _ = (st.before.filter (fun t => !decide (t = []))).length := by
                  rw [splitWS_joinWords _ (fun t ht c hc => hstclean.1 t ht c hc)]
              _ ≤ st.before.length := List.length_filter_le _ _
          -- put the pieces together
          refine le_trans (le_trans ?_ hstlen) hWLlen
          have hmono : ∀ kbc : Nat, kbc ≤ st.before.length →
              kbc + st.after.length ≤ st.before.length + st.after.length := by
            intro kbc h; omega
          apply hmono
          -- keptBeforeCount ≤ |st.before|
          split
          · first
            | exact hkb _ (List.take_prefix _ _)
            | (rename_i hne; exact absurd rfl hne)
          · exact Nat.zero_le _

/-! #### Generic selection lemmas -/

theorem flatten_map_sublist {α β : Type} (g : α → List β) {l₁ l₂ : List α}
    (h : l₁.Sublist l₂) : (l₁.map g).flatten.Sublist ((l₂.map g).flatten) :=
  flatten_sublist_of_sublist (h.map g)

theorem rangeFilterMap_getD_sublist {α : Type} (d : α) (l : List α)
    (f : Nat → Option α)
    (h : ∀ i, i < l.length → ∀ b, f i = some b → b = l.getD i d) :
    ((List.range l.length).filterMap f).Sublist l := by
  induction l generalizing f with
  | nil => simp
  | cons x xs ih =>
    rw [List.length_cons, List.range_succ_eq_map, List.filterMap_cons,
      List.filterMap_map]
    have step : ∀ i, i < xs.length → ∀ b, (f ∘ (· + 1)) i = some b →
        b = xs.getD i d := by
      intro i hi b hb
      have := h (i + 1) (Nat.succ_lt_succ hi) b hb
      simpa [List.getD_cons_succ] using this
    have ih' := ih (f ∘ (· + 1)) step
    cases hf0 : f 0 with
    | none =>
      simp only [hf0]
      exact ih'.cons x
    | some b =>
      have hb := h 0 (Nat.succ_pos _) b hf0
      simp only [List.getD_cons_zero] at hb
      subst hb
      simp only [hf0]
      exact ih'.cons₂ _

theorem filterMap_congr_mem {α β : Type} {l : List α} {f g : α → Option β}
    (h : ∀ a ∈ l, f a = g a) : l.filterMap f = l.filterMap g := by
  induction l with
  | nil => rfl
  | cons a as ih =>
    simp only [List.filterMap_cons, h a (List.mem_cons_self a as)]
    rw [ih (fun x hx => h x (List.mem_cons_of_mem _ hx))]

theorem flatMap_filterMap_comm {α β γ : Type} (l : List α) (g : α → List β)
    (f : β → Option γ) :
    (l.flatMap g).filterMap f = l.flatMap (fun a => (g a).filterMap f) := by
  induction l with
  | nil => rfl
  | cons a as ih => simp [List.flatMap_cons, List.filterMap_append, ih]

theorem flatMap_sublist_pointwise {α β : Type} (l : List α) (f g : α → List β)
    (h : ∀ a ∈ l, (f a).Sublist (g a)) :
    (l.flatMap f).Sublist (l.flatMap g) := by
  induction l with
  | nil => simp
  | cons a as ih =>
    simp only [List.flatMap_cons]
    exact (h a (List.mem_cons_self _ _)).append
      (ih fun x hx => h x (List.mem_cons_of_mem _ hx))

theorem range_filterMap_getD {α β : Type} (d : α) (l : List α)
    (f : α → Option β) :
    (List.range l.length).filterMap (fun p => f (l.getD p d)) = l.filterMap f := by
  induction l with
  | nil => rfl
  | cons x xs ih =>
    rw [List.length_cons, List.range_succ_eq_map, List.filterMap_cons,
      List.filterMap_map]
    have hc : (fun p => f ((x :: xs).getD p d)) ∘ (· + 1) =
        fun p => f (xs.getD p d) := by
      funext p
      simp [List.getD_cons_succ]
    rw [hc, ih, List.filterMap_cons]
    rfl

theorem range_flatMap_getD {α β : Type} (d : α) (l : List α) (g : α → List β) :
    (List.range l.length).flatMap (fun p => g (l.getD p d)) = l.flatMap g := by
  induction l with
  | nil => rfl
  | cons x xs ih =>
    rw [List.length_cons, List.range_succ_eq_map, List.flatMap_cons,
      List.flatMap_map]
    have hc : (fun p => g ((x :: xs).getD (p + 1) d)) =
        fun p => g (xs.getD p d) := by
      funext p
      simp [List.getD_cons_succ]
    rw [hc, ih, List.flatMap_cons]
    rfl

theorem map_getD_range_nat (d : Nat) (l : List Nat) :
    (List.range l.length).map (fun i => l.getD i d) = l := by
  induction l with
  | nil => rfl
  | cons x xs ih =>
    rw [List.length_cons, List.range_succ_eq_map, List.map_cons, List.map_map]
    have hc : ((fun i => (x :: xs).getD i d) ∘ (· + 1)) =
        (fun i => xs.getD i d) := by
      funext i
      simp [List.getD_cons_succ]
    rw [hc, ih]
    simp

/-! #### Per-stage conservation -/

theorem textualScrub_flatten_sublist (segs : List Seg) :
    ((textualScrub segs).map Seg.wordIndices).flatten.Sublist
      ((segs.map Seg.wordIndices).flatten) := by
  by_cases hs : segs = []
  · simp [textualScrub, hs]
  · simp only [textualScrub, if_neg hs]
    refine flatten_map_sublist _ ?_
    refine rangeFilterMap_getD_sublist segDefault segs _ ?_
    intro i hi b hb
    split at hb
    · exact (Option.some.inj hb).symm
    · simp at hb

theorem slicesOf_flatten_aux (wis : List Nat) :
    ∀ (cuts : List Nat) (base : Nat), cuts.Pairwise (· ≤ ·) →
      (∀ c ∈ cuts, base ≤ c) →
      (slicesOf wis cuts).flatten.Sublist (wis.drop base) := by
  intro cuts
  induction cuts with
  | nil => intro base _ _; simp [slicesOf]
  | cons c₁ rest ih =>
    intro base hpw hb
    cases rest with
    | nil => simp [slicesOf]
    | cons c₂ rest' =>
      have h12 : c₁ ≤ c₂ := (List.pairwise_cons.1 hpw).1 c₂ (by simp)
      have hpw' := (List.pairwise_cons.1 hpw).2
      have hb' : ∀ c ∈ c₂ :: rest', c₂ ≤ c := by
        intro c hc
        rcases List.mem_cons.1 hc with rfl | hc
        · exact le_refl c
        · exact (List.pairwise_cons.1 hpw').1 c hc
      have ihc := ih c₂ hpw' hb'
      have hbase1 : base ≤ c₁ := hb c₁ (by simp)
      have hdropbase : (wis.drop c₁).Sublist (wis.drop base) := by
        have hd : wis.drop c₁ = (wis.drop base).drop (c₁ - base) := by
          rw [List.drop_drop]
          congr 1
          omega
        rw [hd]
        exact List.drop_sublist _ _
      have hstep : slicesOf wis (c₁ :: c₂ :: rest') =
          (if c₁ < c₂ then [(wis.drop c₁).take (c₂ - c₁)] else []) ++
            slicesOf wis (c₂ :: rest') := by
        by_cases hlt : c₁ < c₂ <;>
          simp [slicesOf, List.zip_cons_cons, List.filterMap_cons, hlt]
      rw [hstep, List.flatten_append]
      by_cases hlt : c₁ < c₂
      · rw [if_pos hlt]
        have key : (wis.drop c₁).take (c₂ - c₁) ++ wis.drop c₂ = wis.drop c₁ := by
          conv_rhs => rw [← List.take_append_drop (c₂ - c₁) (wis.drop c₁)]
          rw [List.drop_drop]
          congr 2
          omega
        have h1 := List.Sublist.append_left ihc ((wis.drop c₁).take (c₂ - c₁))
        rw [key] at h1
        have h2 := h1.trans hdropbase
        simpa using h2
      · rw [if_neg hlt]
        have hd2 : (wis.drop c₂).Sublist (wis.drop base) := by
          have hbc₂ : base ≤ c₂ := hb c₂ (by simp)
          have hd : wis.drop c₂ = (wis.drop base).drop (c₂ - base) := by
            rw [List.drop_drop]
            congr 1
            omega
          rw [hd]
          exact List.drop_sublist _ _
        simpa using ihc.trans hd2

theorem slicesOf_flatten_sublist (wis cuts : List Nat)
    (h : cuts.Pairwise (· ≤ ·)) :
    (slicesOf wis cuts).flatten.Sublist wis := by
  have := slicesOf_flatten_aux wis cuts 0 h (fun c _ => Nat.zero_le c)
  simpa using this

theorem refineCutsGo_sublist (words : List Word) (audio : Audio)
    (wis : List Nat) :
    ∀ l : List Nat, (refineCutsGo words audio wis l).Sublist (l.map (· + 1)) := by
  intro l
  induction l with
  | nil => simp [refineCutsGo]
  | cons i is ih =>
    simp only [refineCutsGo, List.map_cons]
    split
    · exact ih.cons₂ _
    · split
      · split
        · exact ih.cons₂ _
        · exact ih.cons _
      · exact ih.cons _

theorem refine_cuts_pairwise (words : List Word) (audio : Audio)
    (wis : List Nat) (n : Nat) :
    (0 :: (refineCutsGo words audio wis (List.range (n - 1)) ++ [n])).Pairwise
      (· ≤ ·) := by
  have hsub := refineCutsGo_sublist words audio wis (List.range (n - 1))
  have hmem : ∀ a ∈ refineCutsGo words audio wis (List.range (n - 1)),
      1 ≤ a ∧ a ≤ n := by
    intro a ha
    have := hsub.subset ha
    obtain ⟨i, hi, rfl⟩ := List.mem_map.1 this
    have := List.mem_range.1 hi
    omega
  have hsorted : (refineCutsGo words audio wis (List.range (n - 1))).Pairwise
      (· < ·) := by
    refine List.Pairwise.sublist hsub ?_
    have : (List.range (n - 1)).Pairwise (· < ·) := List.pairwise_lt_range _
    refine List.Pairwise.map _ ?_ this
    intro a b hab
    omega
  refine List.pairwise_cons.2 ⟨?_, ?_⟩
  · intro a ha
    exact Nat.zero_le a
  · refine List.pairwise_append.2 ⟨?_, ?_, ?_⟩
    · exact hsorted.imp le_of_lt
    · simp
    · intro a ha b hb
      rcases List.mem_singleton.1 hb with rfl
      exact (hmem a ha).2

theorem refineSegmentation_flatten_sublist (words : List Word) (audio : Audio)
    (segs : List Seg) :
    ((refineSegmentation words audio segs).map Seg.wordIndices).flatten.Sublist
      ((segs.map Seg.wordIndices).flatten) := by
  unfold refineSegmentation
  induction segs with
  | nil => simp
  | cons s ss ih =>
    simp only [List.flatMap_cons, List.map_append, List.flatten_append,
      List.map_cons, List.flatten_cons]
    refine List.Sublist.append ?_ ih
    have hmk : ∀ (sl : List (List Nat)) (f : List Nat → Seg),
        (∀ x, (f x).wordIndices = x) → (sl.map f).map Seg.wordIndices = sl := by
      intro sl f hf
      rw [List.map_map]
      induction sl with
      | nil => rfl
      | cons a as ih => simp [hf, ih]
    rw [hmk _ _ (fun x => rfl)]
    exact slicesOf_flatten_sublist _ _
      (refine_cuts_pairwise words audio s.wordIndices s.wordIndices.length)

theorem refineSegmentation_text (words : List Word) (audio : Audio)
    (segs : List Seg) :
    ∀ s ∈ refineSegmentation words audio segs,
      s.text = joinWords (s.wordIndices.map
        (fun idx => (words.getD idx wDefault).word)) := by
  intro s hs
  unfold refineSegmentation at hs
  obtain ⟨seg, _, hs⟩ := List.mem_flatMap.1 hs
  obtain ⟨ind, _, rfl⟩ := List.mem_map.1 hs
  rfl

theorem processCutThatSignals_flatten_sublist (words : List Word)
    (segs : List Seg)
    (htext : ∀ s ∈ segs, s.text = joinWords (s.wordIndices.map
      (fun idx => (words.getD idx wDefault).word)))
    (hwclean : ∀ idx : Nat, ∀ c ∈ (words.getD idx wDefault).word,
      isSpaceChar c = false) :
    ((processCutThatSignals words segs).map Seg.wordIndices).flatten.Sublist
      ((segs.map Seg.wordIndices).flatten) := by
  unfold processCutThatSignals
  refine filterMap_flatten_sublist Seg.wordIndices Seg.wordIndices _ segs ?_
  intro a ha b hb
  exact processCutSegment_sublist words a (htext a ha) hwclean b hb

theorem trimTo_sublist (words : List Word) (seg : Seg) (k : Nat) :
    (trimTo words seg k).wordIndices.Sublist seg.wordIndices := by
  simp only [trimTo]
  exact List.take_sublist _ _

theorem noPunctTrim_sublist (words : List Word) (seg : Seg) :
    (noPunctTrim words seg).wordIndices.Sublist seg.wordIndices := by
  simp only [noPunctTrim]
  split
  · exact List.dropLast_sublist _
  · exact List.Sublist.refl _

theorem processIncompleteNoPunct_sublist (words : List Word) (segs : List Seg)
    (i : Nat) (seg : Seg) :
    ∀ b, processIncompleteNoPunct words segs i seg = some b →
      b.wordIndices.Sublist seg.wordIndices := by
  intro b hb
  simp only [processIncompleteNoPunct] at hb
  split at hb
  · simp at hb
  · split at hb
    · rcases Option.some.inj hb with rfl
      exact noPunctTrim_sublist words seg
    · simp at hb

theorem some_of_nonempty_check {Y b : Seg}
    (h : (if Y.wordIndices ≠ [] then some Y else none) = some b) : b = Y := by
  split at h
  · exact (Option.some.inj h).symm
  · cases h

theorem processIncompleteOne_sublist (words : List Word) (segs : List Seg)
    (i : Nat) :
    ∀ b, processIncompleteOne words segs i = some b →
      b.wordIndices.Sublist (segs.getD i segDefault).wordIndices := by
  intro b hb
  simp only [processIncompleteOne] at hb
  split at hb
  · exact processIncompleteNoPunct_sublist words segs i _ b hb
  · rcases some_of_nonempty_check hb with rfl
    repeat' split
    all_goals
      first
      | exact trimTo_sublist words _ _
      | exact List.Sublist.refl _

theorem removeIncompleteSentences_flatten_sublist (words : List Word)
    (segs : List Seg) :
    ((removeIncompleteSentences words segs).map Seg.wordIndices).flatten.Sublist
      ((segs.map Seg.wordIndices).flatten) := by
  unfold removeIncompleteSentences
  exact rangeFilterMap_flatten_sublist Seg.wordIndices segs _
    (fun i hi b hb => processIncompleteOne_sublist words segs i b hb)

theorem processIncrementalTakes_flatten_sublist (segs : List Seg)
    (audio : Audio) :
    ((processIncrementalTakes segs audio).map Seg.wordIndices).flatten.Sublist
      ((segs.map Seg.wordIndices).flatten) := by
  simp only [processIncrementalTakes]
  split
  · exact List.Sublist.refl _
  · refine flatten_map_sublist _ ?_
    refine rangeFilterMap_getD_sublist segDefault segs _ ?_
    intro i hi b hb
    split at hb
    · simp at hb
    · exact (Option.some.inj hb).symm

theorem repGo_sublist (segs : List Seg) (audio : Audio) :
    ∀ (l removed : List Nat),
      (repGo segs audio l removed).Sublist
        (l.map (fun i => segs.getD i segDefault)) := by
  intro l
  induction l with
  | nil => intro removed; simp [repGo]
  | cons i is ih =>
    intro removed
    simp only [repGo, List.map_cons]
    split
    · exact (ih removed).cons _
    · split
      · exact (ih _).cons _
      · exact (ih _).cons₂ _

theorem removeRepetitions_flatten_sublist (segs : List Seg) (audio : Audio) :
    ((removeRepetitions segs audio).map Seg.wordIndices).flatten.Sublist
      ((segs.map Seg.wordIndices).flatten) := by
  unfold removeRepetitions
  split
  · exact List.Sublist.refl _
  · refine flatten_map_sublist _ ?_
    have h := repGo_sublist segs audio (List.range segs.length) []
    rwa [map_getD_range] at h

theorem removePhraseStutters_flatten_sublist (words : List Word)
    (segs : List Seg) :
    ((removePhraseStutters words segs).map Seg.wordIndices).flatten.Sublist
      ((segs.map Seg.wordIndices).flatten) := by
  unfold removePhraseStutters
  refine filterMap_flatten_sublist Seg.wordIndices Seg.wordIndices _ segs ?_
  intro a ha b hb
  dsimp only at hb
  split at hb
  · rcases Option.some.inj hb with rfl
    dsimp only
    refine rangeFilterMap_getD_sublist 0 a.wordIndices _ ?_
    intro li hli x hx
    split at hx
    · simp at hx
    · exact (Option.some.inj hx).symm
  · simp at hb

theorem llmSemanticPass_ok {llm : Option LLMEditor} {segs out : List Seg}
    (h : llmSemanticPass llm segs = .ok out) : out = segs := by
  unfold llmSemanticPass at h
  split at h
  · exact (Except.ok.inj h).symm
  · split at h
    · exact (Except.ok.inj h).symm
    · split at h
      · exact (Except.ok.inj h).symm
      · cases h

theorem none_of_over {α : Type} {P : Prop} [inst : Decidable P] {x b : α}
    (h : (if P then none else some x) = some b) : b = x := by
  split at h
  · cases h
  · exact (Option.some.inj h).symm

theorem applyMlOverrides_flatten_sublist (mlModel : Option MLModel)
    (audio : Audio) (thr : ℚ) (segs : List Seg) :
    ((applyMlOverrides mlModel audio thr segs).map Seg.wordIndices).flatten.Sublist
      ((segs.map Seg.wordIndices).flatten) := by
  unfold applyMlOverrides
  split
  · exact List.Sublist.refl _
  · split
    · exact List.Sublist.refl _
    · refine flatten_map_sublist _ ?_
      refine rangeFilterMap_getD_sublist segDefault segs _ ?_
      intro i hi b hb
      exact none_of_over hb

theorem finalizeSegments_flatten_sublist (words : List Word) (segs : List Seg) :
    ((finalizeSegments words segs).map Clip.wordIndices).flatten.Sublist
      ((segs.map Seg.wordIndices).flatten) := by
  unfold finalizeSegments
  refine filterMap_flatten_sublist Seg.wordIndices Clip.wordIndices _ segs ?_
  intro a ha b hb
  dsimp only at hb
  split at hb
  · simp at hb
  · rcases Option.some.inj hb with rfl
    dsimp only
    exact List.filter_sublist _

/-! #### Thought-grouper word-position bookkeeping -/

theorem sentGo_flatten (words : List Word) :
    ∀ (k m : Nat) (cur : List Nat) (startIdx : Nat),
      ((sentGo words (List.range' m k) cur startIdx).map
        Sentence.wordIndices).flatten = cur ++ List.range' m k := by
  intro k
  induction k with
  | zero =>
    intro m cur s
    by_cases hc : cur = [] <;> simp [sentGo, hc]
  | succ k ih =>
    intro m cur s
    rw [List.range'_succ]
    simp only [sentGo]
    split
    · simp only [List.map_cons, List.flatten_cons, ih]
      simp
    · rw [ih]
      simp

theorem groupIntoSentences_flatten (words : List Word) :
    ((groupIntoSentences words).map Sentence.wordIndices).flatten =
      List.range words.length := by
  unfold groupIntoSentences
  rw [List.range_eq_range']
  simpa using sentGo_flatten words words.length 0 [] 0

theorem mergeGo_flatten :
    ∀ (rest : List Sentence) (prev : Sentence) (group : List Sentence),
      ((mergeGo prev group rest).map Thought.wordIndices).flatten =
        ((group ++ rest).map Sentence.wordIndices).flatten := by
  intro rest
  induction rest with
  | nil =>
    intro prev group
    simp [mergeGo, createThought]
  | cons s ss ih =>
    intro prev group
    simp only [mergeGo]
    split
    · rw [ih]
      simp
    · simp only [List.map_cons, List.flatten_cons, ih]
      simp [createThought]

theorem mergeSentences_flatten (sents : List Sentence) :
    ((mergeSentencesIntoThoughts sents).map Thought.wordIndices).flatten =
      (sents.map Sentence.wordIndices).flatten := by
  cases sents with
  | nil => rfl
  | cons s rest => simpa using mergeGo_flatten rest s [s]

theorem scoreCoherence_map_wi (ts : List Thought) :
    (scoreCoherence ts).map Thought.wordIndices = ts.map Thought.wordIndices := by
  unfold scoreCoherence
  rw [List.map_map]
  rfl

theorem map_getD_range_thought (l : List Thought) :
    (List.range l.length).map (fun i => l.getD i tDefault) = l := by
  induction l with
  | nil => rfl
  | cons x xs ih =>
    rw [List.length_cons, List.range_succ_eq_map, List.map_cons, List.map_map]
    have hc : ((fun i => (x :: xs).getD i tDefault) ∘ (· + 1)) =
        (fun i => xs.getD i tDefault) := by
      funext i
      simp [List.getD_cons_succ]
    rw [hc, ih]
    simp

theorem classifyThoughtTypes_map_wi (ts : List Thought) :
    (classifyThoughtTypes ts).map Thought.wordIndices =
      ts.map Thought.wordIndices := by
  unfold classifyThoughtTypes
  rw [List.map_map]
  have h1 : (Thought.wordIndices ∘ fun i =>
      { ts.getD i tDefault with ttype := classifyOne ts i (ts.getD i tDefault) }) =
      (Thought.wordIndices ∘ fun i => ts.getD i tDefault) := rfl
  rw [h1, ← List.map_map, map_getD_range_thought]

theorem groupIntoThoughts_flatten (ws : List Word) :
    ((groupIntoThoughts ws).map Thought.wordIndices).flatten =
      List.range ws.length := by
  unfold groupIntoThoughts
  split
  · rename_i h
    subst h
    rfl
  · rw [classifyThoughtTypes_map_wi, scoreCoherence_map_wi,
      mergeSentences_flatten, groupIntoSentences_flatten]

theorem set_ttype_map_wi (ts : List Thought) (i : Nat) (ty : TType) :
    (ts.set i { ts.getD i tDefault with ttype := ty }).map Thought.wordIndices =
      ts.map Thought.wordIndices := by
  induction ts generalizing i with
  | nil => rfl
  | cons x xs ih =>
    cases i with
    | zero => simp [List.set]
    | succ n =>
      simp only [List.set, List.map_cons, List.getD_cons_succ]
      rw [ih n]

theorem semFilterLoop_map_wi (audio : Audio) :
    ∀ (l : List Nat) (ts : List Thought) (rem : List Nat),
      ((semFilterLoop audio l ts rem).1).map Thought.wordIndices =
        ts.map Thought.wordIndices := by
  intro l
  induction l with
  | nil => intro ts rem; rfl
  | cons i is ih =>
    intro ts rem
    simp only [semFilterLoop]
    split
    · split
      · split
        · exact ih ts _
        · rw [ih, set_ttype_map_wi]
      · split
        · exact ih ts _
        · exact ih ts _
    · split
      · split
        · split
          · exact ih ts _
          · exact ih ts _
        · exact ih ts _
      · exact ih ts _

/-! #### Mapping surviving thoughts back to segments -/

theorem segsByFirstIdx_mem {segs : List Seg} {o : Nat} {r : Seg}
    (h : segsByFirstIdx segs o = some r) : r ∈ segs ∧ o ∈ r.wordIndices := by
  unfold segsByFirstIdx at h
  have hmem := List.mem_of_find?_eq_some h
  have hp := List.find?_some h
  refine ⟨List.mem_reverse.1 hmem, ?_⟩
  have hh : r.wordIndices.head? = some o := by simpa using hp
  cases hwi : r.wordIndices with
  | nil => rw [hwi] at hh; cases hh
  | cons a as =>
    rw [hwi] at hh
    rcases Option.some.inj hh with rfl
    exact List.mem_cons_self _ _

theorem segsByFirstIdx_cons (s : Seg) (rest : List Seg) (o : Nat) :
    segsByFirstIdx (s :: rest) o =
      match segsByFirstIdx rest o with
      | some r => some r
      | none => if s.wordIndices.head? = some o then some s else none := by
  unfold segsByFirstIdx
  rw [List.reverse_cons, List.find?_append]
  cases h : rest.reverse.find? (fun t => t.wordIndices.head? = some o) with
  | some r => simp [h, Option.orElse]
  | none =>
    simp only [h, Option.orElse]
    by_cases hs : s.wordIndices.head? = some o
    · simp [List.find?, hs]
    · simp [List.find?, hs]

theorem lookup_flat_sublist :
    ∀ (segs : List Seg), (segs.flatMap Seg.wordIndices).Nodup →
      ((segs.flatMap Seg.wordIndices).filterMap
        (fun o => segsByFirstIdx segs o)).Sublist segs := by
  intro segs
  induction segs with
  | nil => simp
  | cons s rest ih =>
    intro hnd
    rw [List.flatMap_cons] at hnd ⊢
    have hnd' := List.nodup_append.1 hnd
    have hs : s.wordIndices.Nodup := hnd'.1
    have hr : (rest.flatMap Seg.wordIndices).Nodup := hnd'.2.1
    have hdis : ∀ a ∈ s.wordIndices, a ∉ rest.flatMap Seg.wordIndices :=
      fun a ha => List.disjoint_left.1 hnd'.2.2 ha
    rw [List.filterMap_append]
    have hB : (rest.flatMap Seg.wordIndices).filterMap
        (fun o => segsByFirstIdx (s :: rest) o) =
        (rest.flatMap Seg.wordIndices).filterMap
          (fun o => segsByFirstIdx rest o) := by
      refine filterMap_congr_mem ?_
      intro o ho
      rw [segsByFirstIdx_cons]
      cases hro : segsByFirstIdx rest o with
      | some r => rfl
      | none =>
        have hno : ¬ s.wordIndices.head? = some o := by
          intro hh
          have : o ∈ s.wordIndices := by
            cases hwi : s.wordIndices with
            | nil => rw [hwi] at hh; cases hh
            | cons a as =>
              rw [hwi] at hh
              rcases Option.some.inj hh with rfl
              exact List.mem_cons_self _ _
          exact hdis o this ho
        rw [if_neg hno]
    have hA : (s.wordIndices).filterMap (fun o => segsByFirstIdx (s :: rest) o) =
        if s.wordIndices = [] then [] else [s] := by
      have hcongr : ∀ o ∈ s.wordIndices,
          segsByFirstIdx (s :: rest) o =
          (if s.wordIndices.head? = some o then some s else none) := by
        intro o ho
        rw [segsByFirstIdx_cons]
        cases hro : segsByFirstIdx rest o with
        | some r =>
          exfalso
          have hm := segsByFirstIdx_mem hro
          exact hdis o ho (List.mem_flatMap.2 ⟨r, hm.1, hm.2⟩)
        | none => rfl
      rw [filterMap_congr_mem hcongr]
      cases hwi : s.wordIndices with
      | nil => simp
      | cons o₀ os =>
        have ho₀ : o₀ ∉ os := by
          rw [hwi] at hs
          exact (List.nodup_cons.1 hs).1
        simp only [List.head?_cons, List.filterMap_cons, if_pos rfl]
        have hrest : os.filterMap
            (fun o => if some o₀ = some o then some s else none) = [] := by
          rw [List.filterMap_eq_nil_iff]
          intro a ha
          rw [if_neg]
          intro hcontra
          rcases Option.some.inj hcontra with rfl
          exact ho₀ ha
        rw [hrest]
        simp
    rw [hA, hB]
    by_cases hwi : s.wordIndices = []
    · rw [if_pos hwi]
      exact (ih hr).cons s
    · rw [if_neg hwi]
      rw [List.singleton_append]
      exact (ih hr).cons₂ s

theorem semanticFiltering_out_sublist (words : List Word) (audio : Audio)
    (segs : List Seg) (hnd : (segs.flatMap Seg.wordIndices).Nodup) :
    (semanticFiltering words audio segs).Sublist segs := by
  by_cases hs : segs = []
  · simp [semanticFiltering, hs]
  · simp only [semanticFiltering, if_neg hs]
    set allWords := segs.flatMap (fun seg =>
      seg.wordIndices.map (fun idx => (words.getD idx wDefault, idx))) with hAW
    set thoughts := groupIntoThoughts (allWords.map (·.1)) with hTH
    set step := semFilterLoop audio (List.range thoughts.length) thoughts []
      with hSTEP
    set f := fun twIdx => segsByFirstIdx segs
      (allWords.getD twIdx (wDefault, 0)).2 with hF
    have h1 : ((List.range step.1.length).flatMap
        (fun i => if step.2.contains i then [] else
          (step.1.getD i tDefault).wordIndices.filterMap f)).Sublist
        ((List.range step.1.length).flatMap
          (fun i => (step.1.getD i tDefault).wordIndices.filterMap f)) := by
      refine flatMap_sublist_pointwise _ _ _ ?_
      intro i _
      split
      · exact List.nil_sublist _
      · exact List.Sublist.refl _
    have h2 : (List.range step.1.length).flatMap
        (fun i => (step.1.getD i tDefault).wordIndices.filterMap f) =
        (step.1.flatMap Thought.wordIndices).filterMap f := by
      rw [range_flatMap_getD tDefault step.1
        (fun t => t.wordIndices.filterMap f)]
      rw [flatMap_filterMap_comm]
    have h3 : step.1.flatMap Thought.wordIndices =
        List.range allWords.length := by
      rw [List.flatMap_def, hSTEP, semFilterLoop_map_wi, ← List.flatMap_def,
        List.flatMap_def, groupIntoThoughts_flatten, List.length_map]
    have h4 : (List.range allWords.length).filterMap f =
        (segs.flatMap Seg.wordIndices).filterMap
          (fun o => segsByFirstIdx segs o) := by
      have h5 := range_filterMap_getD (wDefault, 0) allWords
        (fun a => segsByFirstIdx segs a.2)
      have h6 : allWords.map (fun a => a.2) = segs.flatMap Seg.wordIndices := by
        rw [hAW, List.map_flatMap]
        have hfe : ∀ seg : Seg, ((seg.wordIndices.map
            (fun idx => (words.getD idx wDefault, idx))).map (fun a => a.2)) =
            seg.wordIndices := by
          intro seg
          rw [List.map_map]
          have hid : ((fun a : Word × Nat => a.2) ∘
              fun idx => (words.getD idx wDefault, idx)) = (id : Nat → Nat) := rfl
          rw [hid, List.map_id]
        simp only [hfe]
      calc (List.range allWords.length).filterMap f
          = allWords.filterMap (fun a => segsByFirstIdx segs a.2) := h5
        _ = (allWords.map (fun a => a.2)).filterMap
              (fun o => segsByFirstIdx segs o) :=
            (List.filterMap_map (fun a : Word × Nat => a.2)
              (fun o => segsByFirstIdx segs o) allWords).symm
        _ = (segs.flatMap Seg.wordIndices).filterMap
              (fun o => segsByFirstIdx segs o) := by rw [h6]
    refine h1.trans ?_
    rw [h2, h3, h4]
    exact lookup_flat_sublist segs hnd

theorem semanticFiltering_flatten_sublist (words : List Word) (audio : Audio)
    (segs : List Seg) (hnd : ((segs.map Seg.wordIndices).flatten).Nodup) :
    ((semanticFiltering words audio segs).map Seg.wordIndices).flatten.Sublist
      ((segs.map Seg.wordIndices).flatten) := by
  refine flatten_map_sublist _ ?_
  refine semanticFiltering_out_sublist words audio segs ?_
  rw [List.flatMap_def]
  exact hnd

theorem analyze_flatten_sublist (words : List Word) (audio : Audio)
    (llm : Option LLMEditor) (mlModel : Option MLModel) (useMl : Bool)
    (thr : ℚ) (clips : List Clip)
    (hwclean : ∀ idx : Nat, ∀ c ∈ (words.getD idx wDefault).word,
      isSpaceChar c = false)
    (h : analyze words audio llm mlModel useMl thr = .ok clips) :
    ((clips.map Clip.wordIndices).flatten).Sublist (List.range words.length) := by
  simp only [analyze] at h
  split at h
  · cases h
  · rename_i s10 heq
    rcases Except.ok.inj h with rfl
    rcases llmSemanticPass_ok heq with rfl
    set s1 := splitBySilence words audio with hs1
    set s2 := textualScrub s1 with hs2
    set s3 := refineSegmentation words audio s2 with hs3
    set s4 := processCutThatSignals words s3 with hs4
    set s5 := removeIncompleteSentences words s4 with hs5
    set s6 := processIncrementalTakes s5 audio with hs6
    set s7 := removeRepetitions s6 audio with hs7
    set s8 := removePhraseStutters words s7 with hs8
    set s9 := semanticFiltering words audio s8 with hs9
    have f1 : ((s1.map Seg.wordIndices).flatten) = List.range words.length :=
      splitBySilence_flatten words audio
    have f2 := textualScrub_flatten_sublist s1
    have f3 := refineSegmentation_flatten_sublist words audio s2
    have f4 := processCutThatSignals_flatten_sublist words s3
      (refineSegmentation_text words audio s2) hwclean
    have f5 := removeIncompleteSentences_flatten_sublist words s4
    have f6 := processIncrementalTakes_flatten_sublist s5 audio
    have f7 := removeRepetitions_flatten_sublist s6 audio
    have f8 := removePhraseStutters_flatten_sublist words s7
    have m8 : ((s8.map Seg.wordIndices).flatten).Sublist
        (List.range words.length) := by
      rw [← f1]
      exact f8.trans (f7.trans (f6.trans (f5.trans (f4.trans (f3.trans f2)))))
    have f9 := semanticFiltering_flatten_sublist words audio s8
      (List.Pairwise.sublist m8 (List.nodup_range _))
    have m9 : ((s9.map Seg.wordIndices).flatten).Sublist
        (List.range words.length) := f9.trans m8
    have f11 : (((if useMl then applyMlOverrides mlModel audio thr s9
        else s9).map Seg.wordIndices).flatten).Sublist
        ((s9.map Seg.wordIndices).flatten) := by
      split
      · exact applyMlOverrides_flatten_sublist mlModel audio thr s9
      · exact List.Sublist.refl _
    have f12 := finalizeSegments_flatten_sublist words
      (if useMl then applyMlOverrides mlModel audio thr s9 else s9)
    exact f12.trans (f11.trans m9)

/-! ### Claim theorems -/

/-- C8 (corrected part): on the thought "went home fast" — which has a
verb token but no subject token — the code still awards the +0.2
bonus (`_has_subject_verb` returns `has_subject or has_verb`), giving
coherence 0.85, while the spec's subject+verb-pair formula gives
0.65.  This refutes the claim that +0.2 is added exactly when the
text contains a subject token together with a verb token. -/
theorem C8_counterexample :
    ((groupIntoThoughts wentHomeWords).getD 0 tDefault).coherenceScore = 17/20 ∧
    claimedCoherenceOf ((groupIntoThoughts wentHomeWords).getD 0 tDefault) = 13/20 ∧
    hasVerbToken ((groupIntoThoughts wentHomeWords).getD 0 tDefault).text = true ∧
    hasSubjectToken ((groupIntoThoughts wentHomeWords).getD 0 tDefault).text = false := by
  decide

/-- C8 (amended): every thought produced by the `ThoughtGrouper` has
coherence 0.5, +0.2 when the text contains a subject token **or** a
verb token, +0.15 when it ends in terminal punctuation, +0.1 when
word_count ≥ 3, +0.05 when word_count ∈ [3, 30], clamped to [0, 1]. -/
theorem C8_amended (words : List Word) :
    ∀ t ∈ groupIntoThoughts words,
      t.coherenceScore =
        min 1 (max 0 ((1/2 : ℚ) +
          (if hasSubjectToken t.text || hasVerbToken t.text then 1/5 else 0) +
          (if endsWithAny (rstripStr t.text) ['.', '!', '?'] then 3/20 else 0) +
          (if t.wordCount ≥ 3 then 1/10 else 0) +
          (if 3 ≤ t.wordCount ∧ t.wordCount ≤ 30 then 1/20 else 0))) := by
  intro t ht
  rw [coherence_of_groupIntoThoughts ht]
  rfl

/-- Witness for `C8_amended` at the first thought of
`wentHomeWords`. -/
theorem C8_amended_witness :
    ((groupIntoThoughts wentHomeWords).getD 0 tDefault).coherenceScore =
      min 1 (max 0 ((1/2 : ℚ) +
        (if hasSubjectToken ((groupIntoThoughts wentHomeWords).getD 0 tDefault).text ||
            hasVerbToken ((groupIntoThoughts wentHomeWords).getD 0 tDefault).text
         then 1/5 else 0) +
        (if endsWithAny (rstripStr ((groupIntoThoughts wentHomeWords).getD 0 tDefault).text)
            ['.', '!', '?'] then 3/20 else 0) +
        (if ((groupIntoThoughts wentHomeWords).getD 0 tDefault).wordCount ≥ 3
         then 1/10 else 0) +
        (if 3 ≤ ((groupIntoThoughts wentHomeWords).getD 0 tDefault).wordCount ∧
            ((groupIntoThoughts wentHomeWords).getD 0 tDefault).wordCount ≤ 30
         then 1/20 else 0))) :=
  C8_amended wentHomeWords _ (by decide)

/-- C6 (corrected part): on "apple banana cherry" vs
"apple banana grape" the keyword Jaccard is 1/2 (< 0.7) and the
structural ratio is 28/37, so the code returns 28/37 × 0.4 = 56/185,
while the spec's formula max(penalized structural, Jaccard) would
give 1/2.  The Jaccard value is *not* a candidate when it is below
0.7. -/
theorem C6_counterexample :
    calculateSimilarity (strOf "apple banana cherry") (strOf "apple banana grape") =
      56/185 ∧
    claimedSimilarity (strOf "apple banana cherry") (strOf "apple banana grape") =
      1/2 ∧
    calculateSimilarity (strOf "apple banana cherry") (strOf "apple banana grape") ≠
      claimedSimilarity (strOf "apple banana cherry") (strOf "apple banana grape") := by
  decide

/-- C6 (amended): the similarity used by take consolidation and
repetition removal equals max(structural ratio, keyword Jaccard) when
the Jaccard is ≥ 0.7, and equals structural ratio × 0.4 alone when
the Jaccard is below 0.7 (the Jaccard value is then not compared). -/
theorem C6_amended :
    ∀ text1 text2 : Str,
      calculateSimilarity text1 text2 =
        if keywordJaccard text1 text2 < 7/10 then
          structScoreOf text1 text2 * (2/5)
        else max (structScoreOf text1 text2) (keywordJaccard text1 text2) :=
  fun _ _ => rfl

/-- C3 (code bug): with a constructed `LLMEditor` (here: no API key,
no model — any constructed instance behaves the same), `analyze`
raises `AttributeError` from `_llm_semantic_pass`'s
`self.llm_editor.client` (no `client` attribute is ever assigned),
instead of fail-opening.  The error propagates out of `analyze`. -/
theorem C3_llm_attribute_error :
    analyze cutThatWords none (some ⟨none, none⟩) none false (4/5) =
      Except.error PyErr.attributeError := by
  rfl

/-- C2 (corrected part): on the spec's own transcript
"... it was great. Actually cut that, it was terrible." the final
output *does* contain the words of "it was great." — segmentation has
already isolated that sentence in its own segment before cut-that
processing, so it is never removed.  This refutes the claim that the
output contains none of its words. -/
theorem C2_counterexample :
    (analyze cutThatWords none none none false (4/5)).toOption.map
      (fun cs => cs.map Clip.text) =
    some [strOf "Today was sunny.", strOf "it was great.",
          strOf "it was terrible."] := by
  rfl

/-- C2 (amended): cut-that removal is confined to the segment
containing the phrase: only "Actually cut that," (word indices 6-8)
is discarded; the complete sentence before the phrase lives in an
earlier segment and is retained together with everything after the
phrase. -/
theorem C2_amended :
    (analyze cutThatWords none none none false (4/5)).toOption.map
      (fun cs => cs.map (fun c => (c.text, c.wordIndices))) =
    some [(strOf "Today was sunny.", [0, 1, 2]),
          (strOf "it was great.", [3, 4, 5]),
          (strOf "it was terrible.", [9, 10, 11])] := by
  rfl

/-- C7 (corrected part): on "I want to buy milk." / "I want to buy
bread." with a 1.0s inter-sentence pause, the final output retains
only the first sentence: the ThoughtGrouper classifies the second as
a repetition (shared 4-word run "i want to buy") and the semantic
filter drops it, bypassing divergence protection. -/
theorem C7_counterexample :
    (analyze milkBreadWords none none none false (4/5)).toOption.map
      (fun cs => cs.map Clip.text) =
    some [strOf "I want to buy milk."] := by
  decide

/-- C1 (corrected part): on "we need to find gold." / "we need to
find silver." with a 1.0s pause, the second thought is classified
`repetition` but no prior thought's index is recorded
(`repeated_thought_idx` is never written), and the semantic filter
then drops the repetition itself, keeping its earlier source — the
opposite of the claimed keep-last behaviour, and not the claimed
both-kept safety abort either (the similarity is far below 0.95). -/
theorem C1_counterexample :
    ((groupIntoThoughts goldSilverWords).getD 1 tDefault).ttype = TType.repetition ∧
    ((groupIntoThoughts goldSilverWords).getD 1 tDefault).repeatedThoughtIdx = none ∧
    semanticFiltering goldSilverWords none [goldSeg, silverSeg] = [goldSeg] := by
  decide

/-- C9: in `_split_by_silence`, a gap above 2.0s between words `i` and
`i+1` whose audio energy is zero (or with no audio signal) always
separates the two words into different segments (each still appears
in some segment); a gap of at most 2.0s never separates them. -/
theorem C9_silence_threshold (words : List Word) (audio : Audio) (i : Nat)
    (hin : i + 1 < words.length) :
    (((words.getD (i + 1) wDefault).start - (words.getD i wDefault).stop > 2 ∧
      (audio = none ∨ ∃ f, audio = some f ∧
        audioEnergy f (words.getD i wDefault).stop
          (words.getD (i + 1) wDefault).start = 0)) →
      (∀ s ∈ splitBySilence words audio,
        ¬(i ∈ s.wordIndices ∧ i + 1 ∈ s.wordIndices)) ∧
      (∃ s ∈ splitBySilence words audio, i ∈ s.wordIndices) ∧
      (∃ s ∈ splitBySilence words audio, i + 1 ∈ s.wordIndices)) ∧
    ((words.getD (i + 1) wDefault).start - (words.getD i wDefault).stop ≤ 2 →
      ∀ s ∈ splitBySilence words audio,
        i ∈ s.wordIndices → i + 1 ∈ s.wordIndices) := by
  have hne : words ≠ [] := by
    intro h
    rw [h] at hin
    simp at hin
  have hmem : ∀ j, j < words.length →
      ∃ s ∈ splitBySilence words audio, j ∈ s.wordIndices := by
    intro j hj
    have : j ∈ ((splitBySilence words audio).map Seg.wordIndices).flatten := by
      rw [splitBySilence_flatten]
      exact List.mem_range.2 hj
    obtain ⟨l, hl, hjl⟩ := List.mem_flatten.1 this
    obtain ⟨s, hs, rfl⟩ := List.mem_map.1 hl
    exact ⟨s, hs, hjl⟩
  constructor
  · rintro ⟨hgap, henergy⟩
    have hflush : silenceFlush words audio i := by
      refine ⟨by omega, hgap, ?_⟩
      rcases henergy with rfl | ⟨f, rfl, hf⟩
      · rfl
      · simp only [hf]
        norm_num
    refine ⟨?_, hmem i (by omega), hmem (i + 1) hin⟩
    intro s hs
    unfold splitBySilence at hs
    rw [if_neg hne, List.range_eq_range'] at hs
    exact silenceGo_split words audio i hflush words.length 0 [] 0
      (by simp) (by simp) s hs
  · intro hgap s hs hi
    have hnoflush : ¬silenceFlush words audio i := by
      rintro ⟨_, hgt, _⟩
      exact absurd hgt (not_lt.2 hgap)
    unfold splitBySilence at hs
    rw [if_neg hne, List.range_eq_range'] at hs
    exact silenceGo_no_split words audio i hnoflush hin words.length 0 [] 0
      (by omega) (by simp) s hs hi

def c9Words : List Word :=
  [mkW "hello" 0 (2/5), mkW "there" (17/5) (19/5), mkW "my" 4 (22/5),
   mkW "friend" (9/2) (49/10)]

/-- Witness for `C9_silence_threshold`: a 3.0s silent gap between
words 0 and 1 splits them; the 0.2s gap between words 1 and 2 does
not. -/
theorem C9_silence_threshold_witness :
    ((∀ s ∈ splitBySilence c9Words none,
        ¬(0 ∈ s.wordIndices ∧ 1 ∈ s.wordIndices)) ∧
      (∃ s ∈ splitBySilence c9Words none, 0 ∈ s.wordIndices) ∧
      (∃ s ∈ splitBySilence c9Words none, 1 ∈ s.wordIndices)) ∧
    (∀ s ∈ splitBySilence c9Words none, 1 ∈ s.wordIndices → 2 ∈ s.wordIndices) :=
  ⟨(C9_silence_threshold c9Words none 0 (by decide)).1
      ⟨by decide, Or.inl rfl⟩,
   (C9_silence_threshold c9Words none 1 (by decide)).2 (by decide)⟩

/-- C1 (amended): the classifier never records a matched prior
thought's index, so the semantic filter's keep-last branch never
fires: the loop leaves the thought list unchanged, and the only
removals are a `repetition` thought itself when it has fewer than 8
words (its earlier source is kept), or a small low-coherence
`filler`. -/
theorem C1_amended (words : List Word) (audio : Audio) :
    (∀ t ∈ groupIntoThoughts words, t.repeatedThoughtIdx = none) ∧
    (semFilterLoop audio (List.range (groupIntoThoughts words).length)
        (groupIntoThoughts words) []).1 = groupIntoThoughts words ∧
    (∀ j ∈ (semFilterLoop audio (List.range (groupIntoThoughts words).length)
        (groupIntoThoughts words) []).2,
      (((groupIntoThoughts words).getD j tDefault).ttype = .repetition ∧
        ((groupIntoThoughts words).getD j tDefault).wordCount < 8) ∨
      (((groupIntoThoughts words).getD j tDefault).ttype = .filler ∧
        ((groupIntoThoughts words).getD j tDefault).wordCount ≤ 3 ∧
        ((groupIntoThoughts words).getD j tDefault).coherenceScore < 3/5)) := by
  have hnone' := grouper_repeatedThoughtIdx_none words
  have hnone : ∀ i,
      ((groupIntoThoughts words).getD i tDefault).repeatedThoughtIdx = none := by
    intro i
    by_cases hi : i < (groupIntoThoughts words).length
    · rw [List.getD_eq_getElem _ _ hi]
      exact hnone' _ (List.getElem_mem _)
    · rw [List.getD_eq_default _ _ (le_of_not_lt hi)]
      rfl
  have h := @semFilterLoop_no_source audio _ hnone
    (List.range (groupIntoThoughts words).length) []
  refine ⟨hnone', h.1, fun j hj => ?_⟩
  rcases h.2 j hj with hj' | hj'
  · simp at hj'
  · exact hj'

/-- Witness for `C1_amended`: on `goldSilverWords` the removed thought
(index 1) is the repetition itself, small. -/
theorem C1_amended_witness :
    (((groupIntoThoughts goldSilverWords).getD 1 tDefault).ttype = TType.repetition ∧
      ((groupIntoThoughts goldSilverWords).getD 1 tDefault).wordCount < 8) ∨
    (((groupIntoThoughts goldSilverWords).getD 1 tDefault).ttype = TType.filler ∧
      ((groupIntoThoughts goldSilverWords).getD 1 tDefault).wordCount ≤ 3 ∧
      ((groupIntoThoughts goldSilverWords).getD 1 tDefault).coherenceScore < 3/5) :=
  (C1_amended goldSilverWords none).2.2 1 (by decide)

/-- The audio-override predicate of `_remove_repetitions`: the earlier
take is more than 20% louder than the later one (`false` when no
audio signal is available). -/
def repAudioOverride (audio : Audio) (a b : Seg) : Bool :=
  match audio with
  | some f => decide (audioEnergy f a.startTime a.endTime >
      audioEnergy f b.startTime b.endTime * (6/5))
  | none => false

/-- C5: for an earlier segment `a` and a later segment `b` within the
look-ahead window (gap ≤ 60s) whose similarity exceeds the
length-scaled threshold, `_remove_repetitions` keeps the later `b` by
default, and keeps the earlier `a` exactly when the audio override
fires (`a` more than 20% louder than `b`). -/
theorem C5_keep_policy (a b : Seg) (audio : Audio)
    (hgap : b.startTime - a.endTime ≤ 60)
    (hsim : calculateSimilarity a.text b.text >
      repThreshold a.wordIndices.length) :
    removeRepetitions [a, b] audio =
      if repAudioOverride audio a b then [a] else [b] := by
  have hr2 : List.range 2 = [0, 1] := rfl
  have hgap' : ¬(b.startTime - a.endTime > 60) := not_lt.2 hgap
  cases audio with
  | none =>
    simp [removeRepetitions, hr2, repGo, repScan, repAudioOverride, hgap', hsim]
  | some f =>
    by_cases hov : audioEnergy f a.startTime a.endTime >
        audioEnergy f b.startTime b.endTime * (6/5)
    · simp [removeRepetitions, hr2, repGo, repScan, repAudioOverride, hgap', hsim, hov]
    · simp [removeRepetitions, hr2, repGo, repScan, repAudioOverride, hgap', hsim, hov]

def c5SegA : Seg := ⟨[0, 1, 2], 0, 1, strOf "elephants remember everything."⟩
def c5SegB : Seg := ⟨[3, 4, 5], 2, 3, strOf "elephants remember everything."⟩
def c5Audio : ℚ → ℚ → ℚ := fun s _ => if s = 0 then 1 else 1/2

/-- Witness for `C5_keep_policy`: identical 3-word takes; with the
louder-earlier audio oracle the earlier survives, without audio the
later survives. -/
theorem C5_keep_policy_witness :
    removeRepetitions [c5SegA, c5SegB] (some c5Audio) = [c5SegA] ∧
    removeRepetitions [c5SegA, c5SegB] none = [c5SegB] := by
  constructor
  · rw [C5_keep_policy c5SegA c5SegB (some c5Audio) (by decide) (by decide)]
    decide
  · rw [C5_keep_policy c5SegA c5SegB none (by decide) (by decide)]
    decide

/-- C7 (amended): the take consolidator and the repetition remover
retain both divergent-keyword segments for every timing and audio
state (divergence protection); retention through the semantic filter
holds only when the sentences merge into one thought (pause below
0.8s), shown here on a concrete 0.6s-pause transcript. -/
theorem C7_amended (audio : Audio) (iA iB : List Nat) (sA eA sB eB : ℚ)
    (hA : iA.length = 5) (hB : iB.length = 5) :
    processIncrementalTakes
        [⟨iA, sA, eA, strOf "I want to buy milk."⟩,
         ⟨iB, sB, eB, strOf "I want to buy bread."⟩] audio =
      [⟨iA, sA, eA, strOf "I want to buy milk."⟩,
       ⟨iB, sB, eB, strOf "I want to buy bread."⟩] ∧
    removeRepetitions
        [⟨iA, sA, eA, strOf "I want to buy milk."⟩,
         ⟨iB, sB, eB, strOf "I want to buy bread."⟩] audio =
      [⟨iA, sA, eA, strOf "I want to buy milk."⟩,
       ⟨iB, sB, eB, strOf "I want to buy bread."⟩] ∧
    (analyze milkBreadWordsClose none none none false (4/5)).toOption.map
      (fun cs => cs.map Clip.text) =
      some [strOf "I want to buy milk.", strOf "I want to buy bread."] := by
  refine ⟨?_, ?_, by decide⟩
  · by_cases h30 : sB - eA > 30
    · simp +decide [processIncrementalTakes, takesGo, clusterGo, takesOuter,
        takesInner, takesPairStep, sortAsc, insertAsc, hA, hB, h30]
      rfl
    · simp +decide [processIncrementalTakes, takesGo, clusterGo, takesOuter,
        takesInner, takesPairStep, sortAsc, insertAsc, hA, hB, h30]
      rfl
  · by_cases h60 : sB - eA > 60
    · simp +decide [removeRepetitions, repGo, repScan, hA, hB, h60]
    · simp +decide [removeRepetitions, repGo, repScan, hA, hB, h60]

/-- Witness for `C7_amended` at concrete indices and timings. -/
theorem C7_amended_witness :
    processIncrementalTakes
        [⟨[0, 1, 2, 3, 4], 0, 12/5, strOf "I want to buy milk."⟩,
         ⟨[5, 6, 7, 8, 9], 3, 27/5, strOf "I want to buy bread."⟩] none =
      [⟨[0, 1, 2, 3, 4], 0, 12/5, strOf "I want to buy milk."⟩,
       ⟨[5, 6, 7, 8, 9], 3, 27/5, strOf "I want to buy bread."⟩] ∧
    removeRepetitions
        [⟨[0, 1, 2, 3, 4], 0, 12/5, strOf "I want to buy milk."⟩,
         ⟨[5, 6, 7, 8, 9], 3, 27/5, strOf "I want to buy bread."⟩] none =
      [⟨[0, 1, 2, 3, 4], 0, 12/5, strOf "I want to buy milk."⟩,
       ⟨[5, 6, 7, 8, 9], 3, 27/5, strOf "I want to buy bread."⟩] ∧
    (analyze milkBreadWordsClose none none none false (4/5)).toOption.map
      (fun cs => cs.map Clip.text) =
      some [strOf "I want to buy milk.", strOf "I want to buy bread."] :=
  C7_amended none [0, 1, 2, 3, 4] [5, 6, 7, 8, 9] 0 (12/5) 3 (27/5)
    (by decide) (by decide)

/-- C10: an unpunctuated segment whose post-trim word count is below
6, followed by a segment starting with a restart cue, contributes
nothing to the output of `_remove_incomplete_sentences` — the
position is dropped entirely, not truncated. -/
theorem C10_restart_drop (words : List Word) (segs : List Seg) (i : Nat)
    (hnp : ∀ c ∈ stripStr (segs.getD i segDefault).text, c ≠ '.' ∧ c ≠ '!' ∧ c ≠ '?')
    (hlen : (noPunctTrim words (segs.getD i segDefault)).wordIndices.length < 6)
    (hnext : i < segs.length - 1)
    (hrestart : restartsNoPunct.any (fun r =>
      startsWith (lowerStr (segs.getD (i + 1) segDefault).text) r) = true) :
    processIncompleteOne words segs i = none ∧
    removeIncompleteSentences words segs =
      (List.range segs.length).filterMap (processIncompleteOne words segs) := by
  refine ⟨?_, rfl⟩
  have h1 : rfindChar (stripStr (segs.getD i segDefault).text) '.' = -1 :=
    rfindChar_eq_neg_one (fun c hc => (hnp c hc).1)
  have h2 : rfindChar (stripStr (segs.getD i segDefault).text) '!' = -1 :=
    rfindChar_eq_neg_one (fun c hc => (hnp c hc).2.1)
  have h3 : rfindChar (stripStr (segs.getD i segDefault).text) '?' = -1 :=
    rfindChar_eq_neg_one (fun c hc => (hnp c hc).2.2)
  simp only [processIncompleteOne, h1, h2, h3, processIncompleteNoPunct]
  norm_num
  intro h _
  exfalso
  obtain ⟨r, hr, hrs⟩ := List.any_eq_true.1 hrestart
  have hfalse := h (by simpa using hlen) hnext r hr
  simp only [List.getD_eq_getElem?_getD] at hrs
  rw [hfalse] at hrs
  exact Bool.false_ne_true hrs

/-- Witness for `C10_restart_drop` on a concrete fragment+restart
pair. -/
theorem C10_restart_drop_witness :
    processIncompleteOne restartWords restartSegs 0 = none ∧
    removeIncompleteSentences restartWords restartSegs =
      (List.range restartSegs.length).filterMap
        (processIncompleteOne restartWords restartSegs) :=
  C10_restart_drop restartWords restartSegs 0 (by decide) (by decide) (by decide)
    (by decide)

/-- C4 (counterexample): the claim quantifies over every input word list, but
on the transcript `c4AdvWords` — whose first word string contains embedded
whitespace and sentence punctuation — the cut-that rebuild counts more text
tokens than word indices, and `analyze` returns a single clip whose
`word_indices` list `[0, 1, 2, 3, 3, 4, 5]` repeats index 3, so the final
flattened index list is not duplicate-free.  (The Python pipeline produces
exactly the same clip on this input.) -/
theorem C4_counterexample :
    (analyze c4AdvWords none none none false (4/5)).toOption.map
      (fun clips => (clips.map Clip.wordIndices,
        decide ((clips.map Clip.wordIndices).flatten.Nodup))) =
      some ([[0, 1, 2, 3, 3, 4, 5]], false) := by
  rfl

/-- C4 (amended): for every input word list whose word strings are free of
whitespace characters, every clip of a successful `analyze` run draws its
word indices from the input range, and no index occurs twice across the
final clip list (nor twice within one clip). -/
theorem C4_amended (words : List Word) (audio : Audio)
    (llm : Option LLMEditor) (mlModel : Option MLModel) (useMl : Bool)
    (thr : ℚ) (clips : List Clip)
    (hw : ∀ w ∈ words, ∀ c ∈ w.word, isSpaceChar c = false)
    (h : analyze words audio llm mlModel useMl thr = .ok clips) :
    (∀ cl ∈ clips, ∀ i ∈ cl.wordIndices, i < words.length) ∧
      ((clips.map Clip.wordIndices).flatten).Nodup := by
  have hwclean : ∀ idx : Nat, ∀ c ∈ (words.getD idx wDefault).word,
      isSpaceChar c = false := by
    intro idx c hc
    by_cases hi : idx < words.length
    · rw [List.getD_eq_getElem _ _ hi] at hc
      exact hw _ (List.getElem_mem _) c hc
    · rw [List.getD_eq_default _ _ (le_of_not_lt hi)] at hc
      simp [wDefault] at hc
  have master := analyze_flatten_sublist words audio llm mlModel useMl thr
    clips hwclean h
  constructor
  · intro cl hcl i hi
    have : i ∈ (clips.map Clip.wordIndices).flatten :=
      List.mem_flatten.2 ⟨cl.wordIndices, List.mem_map.2 ⟨cl, hcl, rfl⟩, hi⟩
    exact List.mem_range.1 (master.subset this)
  · exact List.Pairwise.sublist master (List.nodup_range _)

/-- Witness for `C4_amended` on the whitespace-free transcript
`cutThatWords`. -/
theorem C4_amended_witness :
    (∀ w ∈ cutThatWords, ∀ c ∈ w.word, isSpaceChar c = false) ∧
    ∃ clips, analyze cutThatWords none none none false (4/5) =
        Except.ok clips ∧
      (∀ cl ∈ clips, ∀ i ∈ cl.wordIndices, i < cutThatWords.length) ∧
      ((clips.map Clip.wordIndices).flatten).Nodup :=
  ⟨by decide, _, rfl,
    C4_amended cutThatWords none none none false (4/5) _ (by decide) rfl⟩


end VidEd
